import Mathlib

/-!
Verification development for the seekarr acquisition pipeline.

The Go sources are shallowly embedded below: Go strings are modelled as
lists of code points (`Str`), Go `float64` values as exact rationals
(with an explicit binary64 rounding model where the code's behaviour
depends on floating-point rounding), Go slices as lists, and Go maps as
association lists in key-insertion order (Go's map iteration order is
unspecified; insertion order is the deterministic choice used here).
Remote calls (search, enqueue, cancel, transfer listing) are modelled as
pure values supplied by the environment; enqueue/cancel requests are
returned as effect lists.
-/

set_option maxHeartbeats 1000000
set_option maxRecDepth 400000

/-- A Go string viewed as its sequence of code points (runes). -/
abbrev Str := List Char

namespace Seekarr

/-! ## Text normalizer (internal/matcher/matcher.go, `preprocess`)

The Go code runs `transform.Chain(norm.NFKD, runes.Remove(runes.In(unicode.Mn)), norm.NFC)`,
then `strings.ToLower`, then collapses `\s+` runs to one space, then trims.
The Unicode tables are modelled concretely by finite association lists
covering the Latin precomposed letters; characters outside the tables
decompose to themselves, exactly as NFKD leaves unlisted characters alone. -/

/-- Models `unicode.Mn` membership: the combining diacritical marks block. -/
def isMn (c : Char) : Bool := 0x300 ≤ c.toNat && c.toNat ≤ 0x36F

/-- Models the `\s` class of Go's regexp (`[\t\n\f\r ]`). -/
def isSpaceCh (c : Char) : Bool :=
  c = ' ' || c = '\t' || c = '\n' || c = '\x0c' || c = '\r'

/-- Concrete NFKD compatibility-decomposition table (Latin precomposed letters):
each key decomposes to a base letter followed by a combining mark. -/
def nfkdTable : List (Char × List Char) :=
  [ ('à', ['a', '̀']), ('á', ['a', '́']), ('â', ['a', '̂']),
    ('ã', ['a', '̃']), ('ä', ['a', '̈']), ('å', ['a', '̊']),
    ('ç', ['c', '̧']), ('è', ['e', '̀']), ('é', ['e', '́']),
    ('ê', ['e', '̂']), ('ë', ['e', '̈']), ('ì', ['i', '̀']),
    ('í', ['i', '́']), ('î', ['i', '̂']), ('ï', ['i', '̈']),
    ('ñ', ['n', '̃']), ('ò', ['o', '̀']), ('ó', ['o', '́']),
    ('ô', ['o', '̂']), ('õ', ['o', '̃']), ('ö', ['o', '̈']),
    ('ù', ['u', '̀']), ('ú', ['u', '́']), ('û', ['u', '̂']),
    ('ü', ['u', '̈']), ('ý', ['y', '́']), ('ÿ', ['y', '̈']),
    ('À', ['A', '̀']), ('Á', ['A', '́']), ('Â', ['A', '̂']),
    ('Ã', ['A', '̃']), ('Ä', ['A', '̈']), ('Å', ['A', '̊']),
    ('Ç', ['C', '̧']), ('È', ['E', '̀']), ('É', ['E', '́']),
    ('Ê', ['E', '̂']), ('Ë', ['E', '̈']), ('Ì', ['I', '̀']),
    ('Í', ['I', '́']), ('Î', ['I', '̂']), ('Ï', ['I', '̈']),
    ('Ñ', ['N', '̃']), ('Ò', ['O', '̀']), ('Ó', ['O', '́']),
    ('Ô', ['O', '̂']), ('Õ', ['O', '̃']), ('Ö', ['O', '̈']),
    ('Ù', ['U', '̀']), ('Ú', ['U', '́']), ('Û', ['U', '̂']),
    ('Ü', ['U', '̈']), ('Ý', ['Y', '́']) ]

/-- NFKD decomposition of one character (identity off the table). -/
def nfkdChar (c : Char) : List Char := (nfkdTable.lookup c).getD [c]

/-- NFKD decomposition of a string. -/
def nfkd (l : Str) : Str := l.flatMap nfkdChar

/-- `runes.Remove (runes.In unicode.Mn)`: strip combining marks. -/
def stripMarks (l : Str) : Str := l.filter (fun c => !isMn c)

/-- NFC canonical pairwise composition table (inverse of `nfkdTable`). -/
def nfcPair (a b : Char) : Option Char :=
  if isMn b then (nfkdTable.find? (fun p => p.2 = [a, b])).map (·.1) else none

/-- NFC recomposition worker: `a` is the pending base character, which may
absorb a following combining mark. -/
def nfcComposeAux (a : Char) : Str → Str
  | [] => [a]
  | b :: rest =>
    match nfcPair a b with
    | some c => nfcComposeAux c rest
    | none => a :: nfcComposeAux b rest

/-- NFC recomposition: combine a base character with a following combining
mark whenever the pair recomposes.  On mark-free input this is the identity. -/
def nfcCompose : Str → Str
  | [] => []
  | a :: rest => nfcComposeAux a rest

/-- ASCII uppercase-to-lowercase table (models `strings.ToLower`; the Go
code uses the full Unicode tables, of which the ASCII range is the part
exercised after decomposition has removed precomposed letters). -/
def asciiLowerTable : List (Char × Char) :=
  [ ('A', 'a'), ('B', 'b'), ('C', 'c'), ('D', 'd'), ('E', 'e'), ('F', 'f'),
    ('G', 'g'), ('H', 'h'), ('I', 'i'), ('J', 'j'), ('K', 'k'), ('L', 'l'),
    ('M', 'm'), ('N', 'n'), ('O', 'o'), ('P', 'p'), ('Q', 'q'), ('R', 'r'),
    ('S', 's'), ('T', 't'), ('U', 'u'), ('V', 'v'), ('W', 'w'), ('X', 'x'),
    ('Y', 'y'), ('Z', 'z') ]

/-- Lowercase one character. -/
def lowerChar (c : Char) : Char := (asciiLowerTable.lookup c).getD c

/-- Whitespace-collapse worker; the flag records whether the previous
character was whitespace (in which case further whitespace is dropped). -/
def collapseWsAux (inRun : Bool) : Str → Str
  | [] => []
  | c :: rest =>
    if isSpaceCh c then
      if inRun then collapseWsAux true rest
      else ' ' :: collapseWsAux true rest
    else c :: collapseWsAux false rest

/-- Collapse each maximal run of whitespace into a single space
(the `\s+` → `" "` regexp replacement). -/
def collapseWs (l : Str) : Str := collapseWsAux false l

/-- `strings.TrimSpace`: drop leading and trailing whitespace. -/
def trimSpace (l : Str) : Str :=
  ((l.dropWhile isSpaceCh).reverse.dropWhile isSpaceCh).reverse

/-- `Matcher.preprocess`: NFKD-decompose, strip combining marks, recompose,
lowercase, collapse whitespace runs, trim. -/
def preprocess (l : Str) : Str :=
  trimSpace (collapseWs ((nfcCompose (stripMarks (nfkd l))).map lowerChar))

/-! ## Similarity scorer (internal/matcher/matcher.go) -/

/-- Substitution cost of the `texttheater/golang-levenshtein` library's
`DefaultOptions`: matching runes cost 0, otherwise 2 (insertion and
deletion each cost 1). -/
def subCost (a b : Char) : Nat := if a = b then 0 else 2

/-- Worker for the edit-distance recurrence: `prev` computes the distance
from the tail of the first string to any suffix of the second. -/
def levRowFn (a : Char) (prev : Str → Nat) : Str → Nat
  | [] => prev [] + 1
  | b :: bs =>
    min (min (prev (b :: bs) + 1) (levRowFn a prev bs + 1))
      (prev bs + subCost a b)

/-- Specification recurrence of the library's edit distance: deleting the
whole first string or inserting the whole second costs its length, and
`levD (a :: as) (b :: bs)` is the minimum of deletion (`levD as (b :: bs) + 1`),
insertion (`levD (a :: as) bs + 1`) and substitution
(`levD as bs + subCost a b`); stated in that form by `levD_cons_cons`. -/
def levD : Str → Str → Nat
  | [], bs => bs.length
  | a :: as, bs => levRowFn a (levD as) bs

/-- One dynamic-programming row: given the row of distances from `as` to each
suffix of `bs`, produce the row of distances from `a :: as` to each suffix. -/
def suffRow (a : Char) : Str → List Nat → List Nat
  | [], n0 :: _ => [n0 + 1]
  | b :: bs, n0 :: n1 :: rest =>
    match suffRow a bs (n1 :: rest) with
    | t0 :: ts => (min (min (n0 + 1) (t0 + 1)) (n1 + subCost a b)) :: t0 :: ts
    | [] => []
  | _, _ => []

/-- Row of distances from the empty string to each suffix of `bs`. -/
def baseRow (bs : Str) : List Nat := bs.tails.map List.length

/-- The library's matrix computation of the edit distance (`DistanceForStrings`
with `DefaultOptions`), realised row by row; equal to `levD` (proved below). -/
def levDP (as bs : Str) : Nat :=
  (as.foldr (fun a next => suffRow a bs next) (baseRow bs)).headD 0

/-- Go `len(s)` on a string: its UTF-8 byte length. -/
def utf8Len (l : Str) : Nat := (l.map Char.utf8Size).sum

/-- `Matcher.ratio`: similarity of two (already normalized) strings.
Equal strings score 1; if exactly one is empty the score is 0; otherwise
`1 - levD a b / max (len a) (len b)`, where the distance runs over code
points but the lengths — as in the Go code — are byte lengths. -/
def ratioQ (a b : Str) : ℚ :=
  if a = b then 1
  else if a = [] || b = [] then 0
  else 1 - (levDP a b : ℚ) / (max (utf8Len a) (utf8Len b) : ℚ)

/-- `strings.Fields`: whitespace-separated tokens, empties removed. -/
def fieldsWs (l : Str) : List Str :=
  (l.splitOnP (fun c => isSpaceCh c)).filter (· ≠ [])

/-- `strings.Split` with a one-character separator. -/
def splitOnChar (sep : Char) (l : Str) : List Str := l.splitOn sep

/-- `strings.Join` with the single-space separator. -/
def joinSpace (parts : List Str) : Str := (parts.intersperse [' ']).flatten

/-- `Matcher.ratioWithTruncation`: drop leading separator-delimited parts of
the candidate so that it keeps as many parts as the expected string has
whitespace-separated words, then score; fall back to the plain score when
the candidate does not have more parts than that. -/
def ratioWithTruncationQ (expected actual : Str) (sep : Char) : ℚ :=
  let expectedWords := fieldsWs expected
  if expectedWords = [] then 0
  else
    let actualParts := splitOnChar sep actual
    if actualParts.length ≤ expectedWords.length then ratioQ expected actual
    else
      let truncated := trimSpace
        (joinSpace (actualParts.drop (actualParts.length - expectedWords.length)))
      ratioQ expected truncated

/-- Fold of the Go pattern `max := 0.0; if r > max { max = r }`. -/
def maxScore (rs : List ℚ) : ℚ := rs.foldl (fun m r => if r > m then r else m) 0

/-- `Matcher.calculateBestRatio`: preprocess both strings and take the best
of the direct score and the three separator-truncation scores (never below 0,
because the running maximum starts at 0). -/
def calculateBestScore (expected actual : Str) : ℚ :=
  let e := preprocess expected
  let a := preprocess actual
  maxScore [ratioQ e a, ratioWithTruncationQ e a ' ',
    ratioWithTruncationQ e a '_', ratioWithTruncationQ e a '-']

/-- `matcher.ExtractFilename`: strip the extension at the last dot, when that
dot is at a strictly positive index. -/
def extractFilename (l : Str) : Str :=
  match (l.reverse.indexOf? '.') with
  | none => l
  | some ridx =>
    let lastDot := l.length - 1 - ridx
    if 0 < lastDot then l.take lastDot else l

/-- Inner-loop step of `MatchTracks`: keep the larger of the running best
and this candidate's score (extension stripped before scoring). -/
def bestStep (expected : Str) (best : ℚ) (f : Str) : ℚ :=
  let r := calculateBestScore expected (extractFilename f)
  if r > best then r else best

/-- Best score of one expected track over all candidate filenames
(extension stripped), starting the running maximum at 0 as the Go loop does. -/
def bestScoreOver (actualFiles : List Str) (expected : Str) : ℚ :=
  actualFiles.foldl (bestStep expected) 0

/-- Outer-loop step of `MatchTracks`: count a track and accumulate its best
score when it reaches the threshold. -/
def trackStep (threshold : ℚ) (actualFiles : List Str) (acc : Nat × ℚ)
    (expected : Str) : Nat × ℚ :=
  let best := bestScoreOver actualFiles expected
  if best ≥ threshold then (acc.1 + 1, acc.2 + best) else acc

/-- `Matcher.MatchTracks`: every expected track must reach the threshold
against some candidate file; returns the average of the per-track best
scores on success and `(false, 0)` otherwise. -/
def matchTracks (threshold : ℚ) (expectedTracks actualFiles : List Str) :
    Bool × ℚ :=
  if expectedTracks = [] || actualFiles = [] then (false, 0)
  else if actualFiles.length < expectedTracks.length then (false, 0)
  else
    let stats := expectedTracks.foldl (trackStep threshold actualFiles) (0, 0)
    if stats.1 = expectedTracks.length then
      (true, stats.2 / (expectedTracks.length : ℚ))
    else (false, 0)

/-! ## Quality filter (internal/filter/filter.go)

`parseFloatRate` converts `"192"` to `192000` and `"44.1"` to `44100` via
`strconv.ParseFloat` followed by `int(f * 1000)`.  Both steps round to the
nearest binary64 value and the final conversion truncates toward zero, so
the result is not always the mathematically rounded value (e.g. `"64.1"`
yields `64099`).  Binary64 rounding is modelled exactly on rationals. -/

/-- A file from a search response (`slskd.SearchFile`). -/
structure SearchFile where
  filename : Str
  size : Int
  bitRate : Option Int
  sampleRate : Option Int
  bitDepth : Option Int
deriving DecidableEq

/-- Decimal digit value, if the character is a digit. -/
def digitVal (c : Char) : Option Nat :=
  if '0' ≤ c && c ≤ '9' then some (c.toNat - '0'.toNat) else none

/-- Parse an unsigned run of decimal digits. -/
def digitsVal : Str → Option Nat
  | [] => none
  | l => l.foldl
      (fun acc c => match acc, digitVal c with
        | some n, some d => some (n * 10 + d)
        | _, _ => none)
      (some 0)

/-- `strconv.Atoi`: optional sign followed by at least one digit
(overflow is not modelled; the patterns in scope are small). -/
def atoi (l : Str) : Option Int :=
  match l with
  | '+' :: rest => (digitsVal rest).map Int.ofNat
  | '-' :: rest => (digitsVal rest).map (fun n => -(Int.ofNat n))
  | rest => (digitsVal rest).map Int.ofNat

/-- Fuel-based base-2 logarithm worker (structural, so it reduces in the
kernel; the fuel never runs out because `log2 n ≤ n`). -/
def log2Aux : Nat → Nat → Nat
  | 0, _ => 0
  | fuel + 1, n => if 2 ≤ n then log2Aux fuel (n / 2) + 1 else 0

/-- Floor of the base-2 logarithm. -/
def log2N (n : Nat) : Nat := log2Aux n n

/-- Round-half-even of a rational to an integer. -/
def roundHalfEven (x : ℚ) : ℤ :=
  let fl := ⌊x⌋
  let fr := x - fl
  if fr < 1/2 then fl
  else if 1/2 < fr then fl + 1
  else if fl % 2 = 0 then fl else fl + 1

/-- Nearest binary64 value of a positive rational in the normal range,
as an exact rational: round the significand to 53 bits, ties to even. -/
def toFloat64Pos (q : ℚ) : ℚ :=
  let e0 : ℤ := (log2N q.num.natAbs : ℤ) - (log2N q.den : ℤ)
  let e : ℤ := if q < 2 ^ e0 then e0 - 1 else e0
  let m : ℤ := roundHalfEven (q / 2 ^ (e - 52))
  (m : ℚ) * 2 ^ (e - 52)

/-- Nearest binary64 value of a rational (zero maps to zero). -/
def toFloat64 (q : ℚ) : ℚ :=
  if q = 0 then 0
  else if q < 0 then -toFloat64Pos (-q)
  else toFloat64Pos q

/-- Go's `int(f)` on a float: truncation toward zero. -/
def truncToInt (q : ℚ) : ℤ := q.num.tdiv (q.den : ℤ)

/-- `filter.parseFloatRate`: `"192"` → `192000`; a decimal form such as
`"44.1"` is parsed to the nearest binary64 value, multiplied by `1000.0`
in binary64, and truncated toward zero (`int(f * 1000)`).  Decimal forms
are modelled without sign or exponent, which covers the pattern language. -/
def parseFloatRate (l : Str) : Option Int :=
  if l.contains '.' then
    match splitOnChar '.' l with
    | [ip, fp] =>
      if ip = [] && fp = [] then none
      else
        match digitsVal (if ip = [] then ['0'] else ip),
            digitsVal (if fp = [] then ['0'] else fp) with
        | some ipv, some fpv =>
          let q : ℚ := (ipv : ℚ) + (fpv : ℚ) / ((10 : ℚ) ^ fp.length)
          let f := toFloat64 q
          some (truncToInt (toFloat64 (f * 1000)))
        | _, _ => none
    | _ => none
  else
    (atoi l).map (· * 1000)

/-- `filepath.Ext`: the suffix starting at the final dot of the last path
element (empty when the last element has no dot). -/
def fileExtRev : Str → Str → Str
  | [], _ => []
  | c :: rest, acc =>
    if c = '.' then '.' :: acc
    else if c = '/' then []
    else fileExtRev rest (c :: acc)

/-- `filepath.Ext` (see `fileExtRev`, which scans from the end of the path). -/
def fileExt (l : Str) : Str := fileExtRev l.reverse []

/-- Lowercase a string (`strings.ToLower`, modelled on the ASCII range). -/
def toLowerStr (l : Str) : Str := l.map lowerChar

/-- `Filter.matchesFiletype`: match one file against one pattern, given the
file's already-lowercased, dot-stripped extension. -/
def matchesFiletype (file : SearchFile) (ext : Str) (pattern : Str) : Bool :=
  match fieldsWs (toLowerStr pattern) with
  | [] => false
  | wantedExt :: restParts =>
    if ext ≠ wantedExt then false
    else if restParts = [] then true
    else
      match restParts with
      | [quality] =>
        if ext = "flac".data then
          match splitOnChar '/' quality with
          | [dStr, rStr] =>
            match atoi dStr, parseFloatRate rStr with
            | some wantedDepth, some wantedRate =>
              match file.bitDepth, file.sampleRate with
              | some depth, some rate => depth = wantedDepth && rate = wantedRate
              | _, _ => false
            | _, _ => false
          | _ => false
        else if ext = "mp3".data then
          match atoi quality with
          | some wantedBitrate =>
            match file.bitRate with
            | some br => br = wantedBitrate
            | none => false
          | none => false
        else false
      | _ => false

/-- `Filter.FileMatches`: accept when no patterns are configured, otherwise
when any pattern matches; files without an extension are rejected. -/
def fileMatches (allowedFiletypes : List Str) (file : SearchFile) : Bool :=
  if allowedFiletypes = [] then true
  else
    match toLowerStr (fileExt file.filename) with
    | [] => false
    | _ :: ext => allowedFiletypes.any (matchesFiletype file ext)

/-- `Filter.FilterFiles`: keep the files accepted by the policy. -/
def filterFiles (allowedFiletypes : List Str) (files : List SearchFile) :
    List SearchFile :=
  if allowedFiletypes = [] then files
  else files.filter (fileMatches allowedFiletypes)

/-! ## Release selector (`Processor.chooseRelease`)

The Go code counts track-count occurrences in a map and scans it for the
maximum; map iteration order is unspecified in Go, so the count map is
modelled as an association list in key-insertion order (ties on the
maximal occurrence count resolve to the first-inserted count value). -/

/-- A catalog release (`lidarr.Release`, the fields `chooseRelease` uses). -/
structure Release where
  trackCount : Int
  status : Str
  mediumCount : Int
deriving DecidableEq

/-- Build the occurrence-count association list in first-insertion order
(models `trackCounts[r.TrackCount]++`). -/
def countsOf (releases : List Release) : List (Int × Nat) :=
  releases.foldl
    (fun acc r =>
      if acc.any (fun p => p.1 = r.trackCount) then
        acc.map (fun p => if p.1 = r.trackCount then (p.1, p.2 + 1) else p)
      else acc ++ [(r.trackCount, 1)])
    []

/-- Scan for the track count with the most occurrences (strict improvement,
so the first-inserted count wins ties), starting from `(0, 0)` as the Go
code initialises `mostCommonCount`/`maxOccurrences`. -/
def mostCommonCount (releases : List Release) : Int :=
  (countsOf releases).foldl
    (fun (best : Int × Nat) p => if p.2 > best.2 then p else best)
    (0, 0) |>.1

/-- Whether a release is flagged official. -/
def isOfficial (r : Release) : Bool := r.status = "Official".data

/-- `Processor.chooseRelease` on an already-fetched release list: prefer the
first official release with the modal track count, else the first official
release, else the first release; `none` only when the list is empty. -/
def chooseRelease (releases : List Release) : Option Release :=
  if releases = [] then none
  else
    let mc := mostCommonCount releases
    match releases.find? (fun r => isOfficial r && r.trackCount = mc) with
    | some r => some r
    | none =>
      match releases.find? isOfficial with
      | some r => some r
      | none => releases.head?

/-! ## Search-and-enqueue phase (`Processor.searchForAlbum`)

The remote search produces a list of per-peer results; the network calls,
logging, and polling delay are outside the pure embedding.  Two effects
are supplied as environment parameters: the Go code iterates the per-peer
`dirFiles` map with `for dir, files := range dirFiles`, whose order is
unspecified, so the iteration order is an arbitrary arrangement function
applied to the grouped list; and `EnqueueDownloads` can fail, in which
case the code logs and `continue`s scanning, so the enqueue outcome is an
arbitrary boolean function of the peer and directory.  File grouping by
directory uses a Go map whose values are only ever traversed through the
arrangement; the grouped association list is built in
directory-first-appearance order and then arranged. -/

/-- A per-peer search result (`slskd.SearchResult`). -/
structure SearchResult where
  username : Str
  files : List SearchFile
deriving DecidableEq

/-- An expected track (`lidarr.Track`, the fields used). -/
structure Track where
  title : Str
  mediumNumber : Int
deriving DecidableEq

/-- A file reference passed to the enqueue call (`slskd.EnqueueFile`). -/
structure EnqueueFile where
  filename : Str
  size : Int
deriving DecidableEq

/-- A downloaded track entry (`organizer.DownloadedTrack`). -/
structure DownloadedTrack where
  filename : Str
  mediumNumber : Int
deriving DecidableEq

/-- The item built for a matched directory (`processor.DownloadedItem`). -/
structure DownloadedItem where
  artistName : Str
  albumName : Str
  albumId : Int
  folderName : Str
  username : Str
  directory : Str
  mediumCount : Int
  tracks : List DownloadedTrack
deriving DecidableEq

/-- `strings.ReplaceAll(s, "\\", "/")`: normalize Windows separators. -/
def normSlash (l : Str) : Str := l.map (fun c => if c = '\\' then '/' else c)

/-- `strings.Join` with the `"/"` separator. -/
def joinSlash (parts : List Str) : Str := (parts.intersperse ['/']).flatten

/-- `filepath.Dir` for slash-separated relative paths without redundant
separators: everything before the last slash, or `"."` when there is none. -/
def pathDir (l : Str) : Str :=
  let parts := splitOnChar '/' l
  if parts.length ≤ 1 then ".".data
  else joinSlash (parts.dropLast)

/-- `filepath.Base` for such paths: everything after the last slash. -/
def pathBase (l : Str) : Str := (splitOnChar '/' l).getLastD l

/-- Group filtered files by directory of their normalized path, keys in
first-appearance order, values in file order (models the `dirFiles` map);
the stored values are the base filenames. -/
def groupByDir (files : List SearchFile) : List (Str × List Str) :=
  files.foldl
    (fun acc f =>
      let dir := pathDir (normSlash f.filename)
      let base := pathBase (normSlash f.filename)
      if acc.any (fun p => p.1 = dir) then
        acc.map (fun p => if p.1 = dir then (p.1, p.2 ++ [base]) else p)
      else acc ++ [(dir, [base])])
    []

/-- The album fields `searchForAlbum` reads (`lidarr.Album`). -/
structure Album where
  id : Int
  title : Str
  artistName : Str
deriving DecidableEq

/-- `strings.EqualFold`, modelled as ASCII case-insensitive equality. -/
def equalFold (a b : Str) : Bool := toLowerStr a = toLowerStr b

/-- Medium-number lookup table: lowercased track title → medium number, in
track order with later duplicates overwriting (models the `trackMediums`
map; iteration for the containment search is modelled in insertion order). -/
def trackMediums (tracks : List Track) : List (Str × Int) :=
  tracks.foldl
    (fun acc t =>
      let key := toLowerStr t.title
      if acc.any (fun p => p.1 = key) then
        acc.map (fun p => if p.1 = key then (p.1, t.mediumNumber) else p)
      else acc ++ [(key, t.mediumNumber)])
    []

/-- `strings.Contains hay needle`. -/
def strContains (hay needle : Str) : Bool :=
  hay.tails.any (fun t => needle.isPrefixOf t)

/-- Infer a file's medium number: first table entry whose title is contained
in the lowercased extension-stripped filename, defaulting to 1. -/
def mediumFor (table : List (Str × Int)) (filename : Str) : Int :=
  let noExt := toLowerStr (extractFilename filename)
  match table.find? (fun p => strContains noExt p.1) with
  | some p => p.2
  | none => 1

/-- Files of `filteredFiles` lying in directory `dir`, as enqueue requests
(original un-normalized path, as the Go code sends it). -/
def enqueueFilesFor (filteredFiles : List SearchFile) (dir : Str) :
    List EnqueueFile :=
  (filteredFiles.filter (fun f => pathDir (normSlash f.filename) = dir)).map
    (fun f => ⟨f.filename, f.size⟩)

/-- Downloaded-track entries for the matched directory. -/
def tracksFor (tracks : List Track) (filteredFiles : List SearchFile)
    (dir : Str) : List DownloadedTrack :=
  (filteredFiles.filter (fun f => pathDir (normSlash f.filename) = dir)).map
    (fun f =>
      let base := pathBase (normSlash f.filename)
      ⟨base, mediumFor (trackMediums tracks) base⟩)

/-- The item built for a satisfying `(result, dir)` pair. -/
def buildItem (album : Album) (release : Release) (tracks : List Track)
    (result : SearchResult) (filteredFiles : List SearchFile) (dir : Str) :
    DownloadedItem :=
  { artistName := album.artistName
    albumName := album.title
    albumId := album.id
    folderName := pathBase dir
    username := result.username
    directory := dir
    mediumCount := release.mediumCount
    tracks := tracksFor tracks filteredFiles dir }

/-- Scan one peer's directories, in the iteration order the scan was handed,
for the first one whose files satisfy the matcher against the expected
titles and whose enqueue request succeeds; a matcher-satisfying directory
whose enqueue fails is skipped (the Go code logs the error and
`continue`s the directory loop). -/
def scanDirs (threshold : ℚ) (expectedTracks : List Str)
    (canEnq : Str → Bool) (dirs : List (Str × List Str)) : Option Str :=
  (dirs.find? (fun p => (matchTracks threshold expectedTracks p.2).1 &&
    canEnq p.1)).map (·.1)

/-- `Processor.searchForAlbum` after the search results have been fetched:
walk peers in response order, skip ignored peers and peers with no files
left after quality filtering, group by directory, arrange the groups in
the map iteration order `ordd`, and stop at the first directory satisfying
the matcher whose enqueue call (outcome `enqOk` of peer and directory)
succeeds; the produced enqueue request accompanies the item. -/
def searchScan
    (ordd : SearchResult → List (Str × List Str) → List (Str × List Str))
    (enqOk : Str → Str → Bool) (ignoredUsers : List Str)
    (allowedFiletypes : List Str) (threshold : ℚ) (tracks : List Track)
    (album : Album) (release : Release) :
    List SearchResult → Option (DownloadedItem × Str × List EnqueueFile)
  | [] => none
  | result :: rest =>
    if ignoredUsers.any (fun u => equalFold result.username u) then
      searchScan ordd enqOk ignoredUsers allowedFiletypes threshold tracks
        album release rest
    else
      let filteredFiles := filterFiles allowedFiletypes result.files
      if filteredFiles = [] then
        searchScan ordd enqOk ignoredUsers allowedFiletypes threshold tracks
          album release rest
      else
        match scanDirs threshold (tracks.map (·.title))
            (enqOk result.username) (ordd result (groupByDir filteredFiles))
            with
        | some dir =>
          some (buildItem album release tracks result filteredFiles dir,
            result.username, enqueueFilesFor filteredFiles dir)
        | none =>
          searchScan ordd enqOk ignoredUsers allowedFiletypes threshold
            tracks album release rest

def searchForAlbum
    (ordd : SearchResult → List (Str × List Str) → List (Str × List Str))
    (enqOk : Str → Str → Bool) (ignoredUsers : List Str)
    (allowedFiletypes : List Str) (threshold : ℚ) (tracks : List Track)
    (album : Album) (release : Release) (results : List SearchResult) :
    Option (DownloadedItem × Str × List EnqueueFile) :=
  searchScan ordd enqOk ignoredUsers allowedFiletypes threshold tracks album
    release results

/-! ## Transfer monitor (`Processor.monitorDownloads`)

The transfer listing fetched on each poll tick is supplied by an
environment function from tick index to listing (the Go code refetches it
for every item within a tick; the same listing is used here, matching a
remote side that does not change mid-tick, and fetch errors are not
modelled).  The wall-clock stall timeout is modelled by the number of
additional poll ticks the loop may run. -/

/-- A file appearing in the transfer listing (`slskd.DownloadFile`). -/
structure DownloadFile where
  id : Str
  filename : Str
  state : Str
  size : Int
deriving DecidableEq

/-- `DownloadFile.IsCompleted`: the composite state begins with `Completed`. -/
def isCompletedState (s : Str) : Bool := "Completed".data.isPrefixOf s

/-- `DownloadFile.IsErrored`: the four terminal error states. -/
def isErroredState (s : Str) : Bool :=
  s = "Completed, Cancelled".data || s = "Completed, TimedOut".data ||
  s = "Completed, Errored".data || s = "Completed, Rejected".data

/-- `DownloadFile.IsInProgress`: not completed. -/
def isInProgressState (s : Str) : Bool := !isCompletedState s

/-- Transfers of one directory of one peer (`slskd.DirectoryDownloads`). -/
structure DirectoryDownloads where
  directory : Str
  files : List DownloadFile
deriving DecidableEq

/-- Transfers of one peer (`slskd.UserDownloads`). -/
structure UserDownloads where
  username : Str
  directories : List DirectoryDownloads
deriving DecidableEq

/-- The whole transfer listing of one poll tick. -/
abbrev Listing := List UserDownloads

/-- Locate the item's directory in the listing: for each entry of the
matching peer take its first directory whose normalized path equals the
item's (the inner loop breaks on the first hit; the outer loop continues,
so a later entry of the same peer overwrites an earlier hit). -/
def findDirFiles (downloads : Listing) (item : DownloadedItem) :
    List DownloadFile :=
  downloads.foldl
    (fun acc u =>
      if u.username = item.username then
        match u.directories.find?
            (fun d => normSlash d.directory = item.directory) with
        | some d => d.files
        | none => acc
      else acc)
    []

/-- The monitor loop's partition of a directory's files: errored first,
else completed, else in progress (single pass, in file order). -/
def partitionFiles (files : List DownloadFile) :
    List DownloadFile × List DownloadFile × List DownloadFile :=
  files.foldl
    (fun (acc : List DownloadFile × List DownloadFile × List DownloadFile) f =>
      if isErroredState f.state then (acc.1, acc.2.1 ++ [f], acc.2.2)
      else if isCompletedState f.state then (acc.1 ++ [f], acc.2.1, acc.2.2)
      else (acc.1, acc.2.1, acc.2.2 ++ [f]))
    ([], [], [])

/-- Per-item monitor state (the `pending`/`succeeded`/`retryCount` maps). -/
structure ItemState where
  pending : Bool
  succeeded : Bool
  retryCount : Nat
deriving DecidableEq

/-- The fixed retry budget (`maxRetries`). -/
def maxRetries : Nat := 3

/-- Remote requests issued while processing one item on one tick. -/
structure TickEffects where
  cancelled : List DownloadFile
  enqueued : List EnqueueFile
deriving DecidableEq

/-- Process one still-pending item against the tick's listing: drop it when
its directory is absent (or empty); cancel errored files; below the retry
budget, bump the counter and re-enqueue the errored files of the item's
directory; at budget, wait for in-progress files, then finalize as
succeeded exactly when at least one file completed. -/
def tickItem (downloads : Listing) (item : DownloadedItem) (st : ItemState) :
    ItemState × TickEffects :=
  if !st.pending then (st, ⟨[], []⟩)
  else
    let dirFiles := findDirFiles downloads item
    if dirFiles = [] then ({ st with pending := false }, ⟨[], []⟩)
    else
      let parts := partitionFiles dirFiles
      let completedFiles := parts.1
      let erroredFiles := parts.2.1
      let inProgressFiles := parts.2.2
      if erroredFiles ≠ [] then
        let retryEffects : TickEffects :=
          if st.retryCount < maxRetries then
            ⟨erroredFiles,
              (erroredFiles.filter
                (fun f => pathDir (normSlash f.filename) = item.directory)).map
                (fun f => ⟨f.filename, f.size⟩)⟩
          else ⟨erroredFiles, []⟩
        if st.retryCount < maxRetries then
          ({ st with retryCount := st.retryCount + 1 }, retryEffects)
        else if inProgressFiles ≠ [] then (st, retryEffects)
        else if completedFiles ≠ [] then
          ({ st with pending := false, succeeded := true }, retryEffects)
        else ({ st with pending := false }, retryEffects)
      else if inProgressFiles ≠ [] then (st, ⟨[], []⟩)
      else ({ st with pending := false, succeeded := true }, ⟨[], []⟩)

/-- One poll tick over all items (the `for idx, item := range downloadList`
loop body, threading each item's state). -/
def tickAll (downloads : Listing) (items : List DownloadedItem)
    (sts : List ItemState) : List ItemState :=
  List.zipWith (fun it s => (tickItem downloads it s).1) items sts

/-- Number of items still pending. -/
def countPending (sts : List ItemState) : Nat := sts.countP (·.pending)

/-- The poll loop: run a tick, stop when nothing is pending, otherwise
continue while the tick budget (the stall timeout) lasts.  Returns the
final states and the number of ticks performed. -/
def runMonitorAux (env : Nat → Listing) (items : List DownloadedItem) :
    Nat → Nat → List ItemState → List ItemState × Nat
  | fuel, t, sts =>
    let sts' := tickAll (env t) items sts
    if countPending sts' = 0 then (sts', t + 1)
    else
      match fuel with
      | 0 => (sts', t + 1)
      | fuel' + 1 => runMonitorAux env items fuel' (t + 1) sts'

/-- Initial monitor state: every item pending with zero retries. -/
def initStates (items : List DownloadedItem) : List ItemState :=
  items.map (fun _ => ⟨true, false, 0⟩)

/-- `Processor.monitorDownloads`: run the poll loop and return exactly the
items marked succeeded (`fuel` is the number of poll intervals fitting in
the stall timeout). -/
def monitorDownloads (env : Nat → Listing) (fuel : Nat)
    (items : List DownloadedItem) : List DownloadedItem :=
  if items = [] then []
  else
    let final := (runMonitorAux env items fuel 0 (initStates items)).1
    ((items.zip final).filter (fun p => p.2.succeeded)).map (·.1)

/-! ## Derived and specification-side definitions used by the theorems -/

/-- Boolean class tests used by the monitor loop's single-pass partition. -/
def inErrClass (f : DownloadFile) : Bool := isErroredState f.state

/-- Completed and not errored. -/
def inCompClass (f : DownloadFile) : Bool :=
  !isErroredState f.state && isCompletedState f.state

/-- Neither errored nor completed. -/
def inProgClass (f : DownloadFile) : Bool :=
  !isErroredState f.state && !isCompletedState f.state

/-- Specification-side standard (unit-substitution) edit distance, from the
spec's words "editDistance(a,b) ... computed over code points"; compared
against the code's cost structure in the C4 counterexample. -/
def levStdRow (a : Char) (prev : Str → Nat) : Str → Nat
  | [] => prev [] + 1
  | b :: bs =>
    min (min (prev (b :: bs) + 1) (levStdRow a prev bs + 1))
      (prev bs + (if a = b then 0 else 1))

/-- The unit-cost distance itself. -/
def levStd : Str → Str → Nat
  | [], bs => bs.length
  | a :: as, bs => levStdRow a (levStd as) bs

/-- Number of releases with the given track count. -/
def countOcc (rs : List Release) (c : Int) : Nat :=
  rs.countP (fun r => r.trackCount = c)

/-- Specification-side flattened candidate sequence of the search phase:
peers in response order (ignored peers and peers with nothing left after
quality filtering skipped), then that peer's directories in the map
iteration order `ordd`.  Each entry carries the peer's result, its
filtered file list, and the directory with its base filenames. -/
def candidateSeq
    (ordd : SearchResult → List (Str × List Str) → List (Str × List Str))
    (ignoredUsers allowedFiletypes : List Str)
    (results : List SearchResult) :
    List (SearchResult × List SearchFile × Str × List Str) :=
  results.flatMap (fun r =>
    if ignoredUsers.any (fun u => equalFold r.username u) then []
    else
      let ff := filterFiles allowedFiletypes r.files
      if ff = [] then []
      else (ordd r (groupByDir ff)).map (fun p => (r, ff, p.1, p.2)))

/-- A character is in base form when it is untouched by each table of the
normalizer: no compatibility decomposition, not a combining mark, and not
an uppercase letter. -/
def baseGood (c : Char) : Prop :=
  nfkdTable.lookup c = none ∧ isMn c = false ∧
  asciiLowerTable.lookup c = none

/-- A string is in canonical form when all its characters are in base form,
its only whitespace is the plain space, no two adjacent characters are
both whitespace, and it neither starts nor ends with whitespace.  The
normalizer maps every string into canonical form and fixes canonical
strings. -/
def canonStr (l : Str) : Prop :=
  (∀ c ∈ l, baseGood c) ∧ (∀ c ∈ l, isSpaceCh c = true → c = ' ') ∧
  l.Chain' (fun a b => isSpaceCh a = false ∨ isSpaceCh b = false) ∧
  (∀ c ∈ l.head?, isSpaceCh c = false) ∧
  (∀ c ∈ l.getLast?, isSpaceCh c = false)

/-- Default item used with positional `getD` lookups. -/
def dItem : DownloadedItem := ⟨[], [], 0, [], [], [], 0, []⟩

/-- Default item state used with positional `getD` lookups. -/
def dState : ItemState := ⟨false, false, 0⟩

/-! ## Theorems -/

set_option allowUnsafeReducibility true in
attribute [semireducible] Rat.add Rat.sub Rat.mul Rat.div Rat.inv Rat.blt
  Rat.ofScientific Rat.neg

/-! ### File-state classification (C9) -/

lemma partitionFiles_go (files : List DownloadFile)
    (acc : List DownloadFile × List DownloadFile × List DownloadFile) :
    files.foldl
      (fun (acc : List DownloadFile × List DownloadFile × List DownloadFile) f =>
        if isErroredState f.state then (acc.1, acc.2.1 ++ [f], acc.2.2)
        else if isCompletedState f.state then (acc.1 ++ [f], acc.2.1, acc.2.2)
        else (acc.1, acc.2.1, acc.2.2 ++ [f]))
      acc =
    (acc.1 ++ files.filter inCompClass, acc.2.1 ++ files.filter inErrClass,
      acc.2.2 ++ files.filter inProgClass) := by
  induction files generalizing acc with
  | nil => simp
  | cons f fs ih =>
    by_cases he : isErroredState f.state
    · simp [List.filter_cons, he, ih, inErrClass, inCompClass, inProgClass]
    · by_cases hc : isCompletedState f.state <;>
        simp [List.filter_cons, he, hc, ih, inErrClass, inCompClass, inProgClass]

lemma partitionFiles_eq (files : List DownloadFile) :
    partitionFiles files =
      (files.filter inCompClass, files.filter inErrClass,
        files.filter inProgClass) := by
  simpa [partitionFiles] using partitionFiles_go files ([], [], [])

lemma errored_isCompleted {s : Str} (h : isErroredState s = true) :
    isCompletedState s = true := by
  simp only [isErroredState, Bool.or_eq_true, decide_eq_true_eq] at h
  rcases h with ((h | h) | h) | h <;> subst h <;> decide

/-- C9 (amended): under the monitoring loop's partition every observed file
falls into exactly one of the classes errored / completed / in-progress
(taken in that test order), and the partition lists are exactly the files
of each class in listing order; the raw predicates are exhaustive
(`IsCompleted` or `IsInProgress` always holds) but not mutually exclusive:
every errored composite state also satisfies `IsCompleted`. -/
theorem C9_classification (files : List DownloadFile) :
    (partitionFiles files).1 = files.filter inCompClass ∧
    (partitionFiles files).2.1 = files.filter inErrClass ∧
    (partitionFiles files).2.2 = files.filter inProgClass ∧
    (∀ f ∈ files,
      (inErrClass f = true ∧ inCompClass f = false ∧ inProgClass f = false) ∨
      (inErrClass f = false ∧ inCompClass f = true ∧ inProgClass f = false) ∨
      (inErrClass f = false ∧ inCompClass f = false ∧ inProgClass f = true)) ∧
    (∀ s : Str, isCompletedState s = true ∨ isInProgressState s = true) ∧
    (∀ s : Str, isErroredState s = true → isCompletedState s = true) := by
  refine ⟨?_, ?_, ?_, ?_, ?_, ?_⟩
  · rw [partitionFiles_eq]
  · rw [partitionFiles_eq]
  · rw [partitionFiles_eq]
  · intro f _
    unfold inErrClass inCompClass inProgClass
    by_cases he : isErroredState f.state <;>
      by_cases hc : isCompletedState f.state <;> simp [he, hc]
  · intro s
    by_cases hc : isCompletedState s <;> simp [isInProgressState, hc]
  · intro s h
    exact errored_isCompleted h

/-- C9 counterexample: the claim's mutual exclusivity fails for the raw
predicates — the composite state `"Completed, Errored"` satisfies both
`IsErrored` and `IsCompleted`. -/
theorem C9_overlap :
    isErroredState "Completed, Errored".data = true ∧
    isCompletedState "Completed, Errored".data = true ∧
    isInProgressState "Completed, Errored".data = false := by decide

/-! ### Quality filter (C5) -/

lemma fileExtRev_shape (r acc : Str) :
    fileExtRev r acc = [] ∨ ∃ e, fileExtRev r acc = '.' :: e := by
  induction r generalizing acc with
  | nil => exact Or.inl rfl
  | cons c rest ih =>
    by_cases hd : c = '.'
    · exact Or.inr ⟨acc, by simp [fileExtRev, hd]⟩
    · by_cases hs : c = '/'
      · exact Or.inl (by simp [fileExtRev, hd, hs])
      · simpa [fileExtRev, hd, hs] using ih (c :: acc)

lemma fileExt_shape (l : Str) :
    fileExt l = [] ∨ ∃ e, fileExt l = '.' :: e := fileExtRev_shape l.reverse []

/-- C5 (amended): a file matches a lossless pattern of the form
`flac depth/rate` exactly when its extension is `flac` and its bit-depth
and sample-rate metadata are both present and equal the parsed values,
where the rate is parsed by `parseFloatRate`: kHz times 1000 computed in
binary64 arithmetic and truncated toward zero (not mathematically rounded —
see the counterexample).  A flac file with absent metadata never matches
such a pattern but does match the bare pattern `flac`. -/
theorem C5_qualityPattern (file : SearchFile) (p q ds rs : Str) (wd wr : Int)
    (hp : fieldsWs (toLowerStr p) = ["flac".data, q])
    (hq : splitOnChar '/' q = [ds, rs])
    (hd : atoi ds = some wd) (hr : parseFloatRate rs = some wr) :
    (∀ ext : Str, matchesFiletype file ext p = true ↔
      (ext = "flac".data ∧ file.bitDepth = some wd ∧
        file.sampleRate = some wr)) ∧
    (fileMatches [p] file = true ↔
      (toLowerStr (fileExt file.filename) = ".flac".data ∧
        file.bitDepth = some wd ∧ file.sampleRate = some wr)) ∧
    ((file.bitDepth = none ∨ file.sampleRate = none) →
      matchesFiletype file "flac".data p = false ∧
      matchesFiletype file "flac".data "flac".data = true) := by
  have hmain : ∀ ext : Str, matchesFiletype file ext p = true ↔
      (ext = "flac".data ∧ file.bitDepth = some wd ∧
        file.sampleRate = some wr) := by
    intro ext
    unfold matchesFiletype
    rw [hp]
    by_cases hext : ext = "flac".data
    · subst hext
      cases hbd : file.bitDepth with
      | none => simp [hq, hd, hr, hbd]
      | some depth =>
        cases hsr : file.sampleRate with
        | none => simp [hq, hd, hr, hbd, hsr]
        | some rate => simp [hq, hd, hr, hbd, hsr]
    · simp [hext]
  refine ⟨hmain, ?_, ?_⟩
  · rcases fileExt_shape file.filename with hsh | ⟨e, hsh⟩
    · have hfm : fileMatches [p] file = false := by
        unfold fileMatches
        rw [hsh]
        simp [toLowerStr]
      rw [hfm, hsh]
      simp [toLowerStr]
    · have hlow : toLowerStr (fileExt file.filename) = '.' :: toLowerStr e := by
        rw [hsh]; rfl
      have hdot : (".flac".data : Str) = '.' :: "flac".data := rfl
      have hfm : fileMatches [p] file = matchesFiletype file (toLowerStr e) p := by
        unfold fileMatches
        rw [hlow]
        simp
      rw [hfm, hmain (toLowerStr e), hlow, hdot]
      constructor
      · rintro ⟨he, hb, hs⟩
        exact ⟨by rw [he], hb, hs⟩
      · rintro ⟨he, hb, hs⟩
        refine ⟨?_, hb, hs⟩
        injection he with _ h2
  · intro habs
    constructor
    · cases hmf : matchesFiletype file "flac".data p with
      | false => rfl
      | true =>
        have hall := (hmain "flac".data).mp hmf
        rcases habs with h | h <;> rw [h] at hall <;> simp at hall
    · have hf : fieldsWs (toLowerStr "flac".data) = ["flac".data] := by decide
      unfold matchesFiletype
      rw [hf]
      simp

/-- C5 counterexample: for the pattern `flac 24/64.1` the claim's rounded
conversion gives 64100 Hz, but the code truncates the binary64 product
`float64(64.1) * 1000` and accepts exactly 64099 Hz. -/
theorem C5_truncation :
    fileMatches ["flac 24/64.1".data]
      (SearchFile.mk "a.flac".data 1 none (some 64100) (some 24)) = false ∧
    fileMatches ["flac 24/64.1".data]
      (SearchFile.mk "a.flac".data 1 none (some 64099) (some 24)) = true := by
  decide

/-- C5 witness: the pattern `flac 16/44.1` accepts a flac file with
16-bit depth and 44100 Hz sample rate. -/
theorem C5_witness :
    fileMatches ["flac 16/44.1".data]
      (SearchFile.mk "dir/a.FLAC".data 1 none (some 44100) (some 16)) = true := by
  have h := C5_qualityPattern
    (SearchFile.mk "dir/a.FLAC".data 1 none (some 44100) (some 16))
    "flac 16/44.1".data "16/44.1".data "16".data "44.1".data 16 44100
    (by decide) (by decide) (by decide) (by decide)
  exact h.2.1.mpr ⟨by decide, rfl, rfl⟩

/-! ### Release selector (C6) -/

/-- The single fold step building the occurrence-count association list. -/
lemma countsOf_snoc (rs : List Release) (r : Release) :
    countsOf (rs ++ [r]) =
      (if (countsOf rs).any (fun p => p.1 = r.trackCount) then
        (countsOf rs).map
          (fun p => if p.1 = r.trackCount then (p.1, p.2 + 1) else p)
      else countsOf rs ++ [(r.trackCount, 1)]) := by
  unfold countsOf
  rw [List.foldl_append]
  rfl

lemma countOcc_snoc (rs : List Release) (r : Release) (c : Int) :
    countOcc (rs ++ [r]) c =
      countOcc rs c + (if r.trackCount = c then 1 else 0) := by
  unfold countOcc
  rw [List.countP_append]
  by_cases h : r.trackCount = c <;> simp [List.countP_cons, h]

lemma countsOf_inv (rs : List Release) :
    (∀ p ∈ countsOf rs, p.2 = countOcc rs p.1) ∧
    (∀ c : Int, (∃ n, (c, n) ∈ countsOf rs) ↔ ∃ r ∈ rs, r.trackCount = c) := by
  induction rs using List.reverseRecOn with
  | nil => simp [countsOf, countOcc]
  | append_singleton rs r ih =>
    obtain ⟨ihv, ihk⟩ := ih
    rw [countsOf_snoc]
    by_cases hany : (countsOf rs).any (fun p => p.1 = r.trackCount)
    · obtain ⟨w, hw, hwk⟩ : ∃ q ∈ countsOf rs, q.1 = r.trackCount := by
        simpa [List.any_eq_true] using hany
      simp only [hany, if_true]
      constructor
      · intro p hp
        obtain ⟨q, hq, hqe⟩ := List.mem_map.mp hp
        by_cases hk : q.1 = r.trackCount
        · rw [if_pos hk] at hqe
          subst hqe
          have h1 := ihv q hq
          show q.2 + 1 = countOcc (rs ++ [r]) q.1
          rw [countOcc_snoc, if_pos hk.symm]
          omega
        · rw [if_neg hk] at hqe
          subst hqe
          rw [countOcc_snoc, if_neg (fun he => hk he.symm)]
          have h1 := ihv q hq
          omega
      · intro c
        constructor
        · rintro ⟨n, hn⟩
          obtain ⟨q, hq, hqe⟩ := List.mem_map.mp hn
          have hfst : (if q.1 = r.trackCount then (q.1, q.2 + 1) else q).1 = q.1 := by
            by_cases hk : q.1 = r.trackCount <;> simp [hk]
          have hqc : q.1 = c := by rw [← hfst, hqe]
          obtain ⟨x, hx, hxc⟩ := (ihk c).mp ⟨q.2, by
            rw [← hqc]
            simpa using hq⟩
          exact ⟨x, List.mem_append_left _ hx, hxc⟩
        · rintro ⟨x, hx, hxc⟩
          rcases List.mem_append.mp hx with hx | hx
          · obtain ⟨n, hn⟩ := (ihk c).mpr ⟨x, hx, hxc⟩
            by_cases hk : c = r.trackCount
            · exact ⟨n + 1, List.mem_map.mpr ⟨(c, n), hn, by simp [hk]⟩⟩
            · exact ⟨n, List.mem_map.mpr ⟨(c, n), hn, by simp [hk]⟩⟩
          · have hxr : x = r := by simpa using hx
            subst hxr
            refine ⟨w.2 + 1, List.mem_map.mpr ⟨w, hw, ?_⟩⟩
            rw [if_pos hwk]
            simp [hwk, hxc]
    · rw [if_neg hany]
      have hnone : ∀ q ∈ countsOf rs, q.1 ≠ r.trackCount := by
        intro q hq
        intro he
        exact hany (List.any_eq_true.mpr ⟨q, hq, by simp [he]⟩)
      have hzero : countOcc rs r.trackCount = 0 := by
        rw [countOcc, List.countP_eq_zero]
        intro x hx hxc
        obtain ⟨n, hn⟩ := (ihk r.trackCount).mpr ⟨x, hx, by simpa using hxc⟩
        exact hnone _ hn rfl
      constructor
      · intro p hp
        rcases List.mem_append.mp hp with hp | hp
        · rw [countOcc_snoc, if_neg (fun he => hnone p hp he.symm)]
          have h1 := ihv p hp
          omega
        · have hpe : p = (r.trackCount, 1) := by simpa using hp
          subst hpe
          show (1 : Nat) = countOcc (rs ++ [r]) r.trackCount
          rw [countOcc_snoc, if_pos rfl, hzero]
      · intro c
        constructor
        · rintro ⟨n, hn⟩
          rcases List.mem_append.mp hn with hn | hn
          · obtain ⟨x, hx, hxc⟩ := (ihk c).mp ⟨n, hn⟩
            exact ⟨x, List.mem_append_left _ hx, hxc⟩
          · have hce : c = r.trackCount ∧ n = 1 := by simpa using hn
            exact ⟨r, List.mem_append_right _ (by simp), hce.1.symm⟩
        · rintro ⟨x, hx, hxc⟩
          rcases List.mem_append.mp hx with hx | hx
          · obtain ⟨n, hn⟩ := (ihk c).mpr ⟨x, hx, hxc⟩
            exact ⟨n, List.mem_append_left _ hn⟩
          · have hxr : x = r := by simpa using hx
            subst hxr
            exact ⟨1, List.mem_append_right _ (by simp [hxc])⟩


lemma foldBest_spec (l : List (Int × Nat)) (init : Int × Nat) :
    (l.foldl (fun (best : Int × Nat) p => if p.2 > best.2 then p else best)
        init = init ∨
      l.foldl (fun (best : Int × Nat) p => if p.2 > best.2 then p else best)
        init ∈ l) ∧
    init.2 ≤ (l.foldl
      (fun (best : Int × Nat) p => if p.2 > best.2 then p else best) init).2 ∧
    (∀ p ∈ l,
      p.2 ≤ (l.foldl
        (fun (best : Int × Nat) p => if p.2 > best.2 then p else best)
        init).2) := by
  induction l generalizing init with
  | nil => simp
  | cons q l ih =>
    simp only [List.foldl_cons]
    obtain ⟨ihmem, ihinit, ihge⟩ := ih (if q.2 > init.2 then q else init)
    have hinit : init.2 ≤ (if q.2 > init.2 then q else init).2 := by
      by_cases hq : q.2 > init.2
      · rw [if_pos hq]; omega
      · rw [if_neg hq]
    have hq2 : q.2 ≤ (if q.2 > init.2 then q else init).2 := by
      by_cases hq : q.2 > init.2
      · rw [if_pos hq]
      · rw [if_neg hq]; omega
    refine ⟨?_, hinit.trans ihinit, ?_⟩
    · rcases ihmem with h | h
      · by_cases hq : q.2 > init.2
        · rw [if_pos hq] at h ⊢
          exact Or.inr (by simp [h])
        · rw [if_neg hq] at h ⊢
          exact Or.inl h
      · exact Or.inr (List.mem_cons_of_mem _ h)
    · intro p hp
      rcases List.mem_cons.mp hp with hp | hp
      · subst hp
        exact hq2.trans ihinit
      · exact ihge p hp

lemma mostCommonCount_max (rs : List Release) :
    ∀ x ∈ rs, countOcc rs x.trackCount ≤ countOcc rs (mostCommonCount rs) := by
  intro x hx
  obtain ⟨ihv, ihk⟩ := countsOf_inv rs
  obtain ⟨hmem, _, hge⟩ := foldBest_spec (countsOf rs) (0, 0)
  obtain ⟨nx, hnx⟩ := (ihk x.trackCount).mpr ⟨x, hx, rfl⟩
  have hnxv : nx = countOcc rs x.trackCount := by
    simpa using ihv (x.trackCount, nx) hnx
  have hxle := hge _ hnx
  rcases hmem with hfold | hfold
  · exfalso
    have h0 : nx ≤ 0 := by
      have := hge _ hnx
      rw [hfold] at this
      simpa using this
    have h1 : 0 < countOcc rs x.trackCount := by
      rw [countOcc, List.countP_pos_iff]
      exact ⟨x, hx, by simp⟩
    omega
  · have hv := ihv _ hfold
    unfold mostCommonCount
    rw [← hv]
    simpa [hnxv] using hxle

/-- C6: for every non-empty release list the selector returns a member
release; the modal track count has maximal occurrence frequency among all
releases' track counts; when an official release with the modal count
exists the result is the first such release in list order (hence official
with the modal count), otherwise the first official release in list order
when one exists, otherwise the first release. -/
theorem C6_chooseRelease (rs : List Release) (h : rs ≠ []) :
    ∃ r, chooseRelease rs = some r ∧ r ∈ rs ∧
      (∀ x ∈ rs, countOcc rs x.trackCount ≤
        countOcc rs (mostCommonCount rs)) ∧
      ((∃ x ∈ rs, isOfficial x = true ∧ x.trackCount = mostCommonCount rs) →
        rs.find? (fun x => isOfficial x &&
          decide (x.trackCount = mostCommonCount rs)) = some r ∧
        isOfficial r = true ∧ r.trackCount = mostCommonCount rs) ∧
      ((¬∃ x ∈ rs, isOfficial x = true ∧ x.trackCount = mostCommonCount rs) →
        (∃ x ∈ rs, isOfficial x = true) →
        rs.find? isOfficial = some r ∧ isOfficial r = true) ∧
      ((¬∃ x ∈ rs, isOfficial x = true) → rs.head? = some r) := by
  have hmax := mostCommonCount_max rs
  have hsel : ∀ r0 : Release, chooseRelease rs = some r0 ↔
      (match rs.find? (fun r => isOfficial r &&
          decide (r.trackCount = mostCommonCount rs)) with
        | some r => some r
        | none =>
          match rs.find? isOfficial with
          | some r => some r
          | none => rs.head?) = some r0 := by
    intro r0
    unfold chooseRelease
    rw [if_neg h]
  cases hf1 : rs.find? (fun r => isOfficial r &&
      decide (r.trackCount = mostCommonCount rs)) with
  | some r =>
    have hr := List.find?_some hf1
    have hrm := List.mem_of_find?_eq_some hf1
    simp only [Bool.and_eq_true, decide_eq_true_eq] at hr
    refine ⟨r, (hsel r).mpr (by rw [hf1]), hrm, hmax,
      fun _ => ⟨rfl, hr.1, hr.2⟩, ?_, ?_⟩
    · intro hno _
      exact absurd ⟨r, hrm, hr.1, hr.2⟩ hno
    · intro hno
      exact absurd ⟨r, hrm, hr.1⟩ hno
  | none =>
    have hno1 : ¬∃ x ∈ rs, isOfficial x = true ∧
        x.trackCount = mostCommonCount rs := by
      rintro ⟨x, hx, hxo, hxc⟩
      have := List.find?_eq_none.mp hf1 x hx
      simp [hxo, hxc] at this
    cases hf2 : rs.find? isOfficial with
    | some r =>
      have hr := List.find?_some hf2
      have hrm := List.mem_of_find?_eq_some hf2
      refine ⟨r, (hsel r).mpr (by rw [hf1, hf2]), hrm, hmax,
        fun hex => absurd hex hno1, fun _ _ => ⟨rfl, hr⟩, ?_⟩
      intro hno
      exact absurd ⟨r, hrm, hr⟩ hno
    | none =>
      have hno2 : ¬∃ x ∈ rs, isOfficial x = true := by
        rintro ⟨x, hx, hxo⟩
        have := List.find?_eq_none.mp hf2 x hx
        simp [hxo] at this
      obtain ⟨a, l, hrs⟩ : ∃ a l, rs = a :: l := by
        cases rs with
        | nil => exact absurd rfl h
        | cons a l => exact ⟨a, l, rfl⟩
      refine ⟨a, (hsel a).mpr (by rw [hf1, hf2, hrs]; rfl), by simp [hrs],
        hmax, fun hex => absurd hex hno1,
        fun _ hex => absurd hex hno2, fun _ => by simp [hrs]⟩

/-- C6 witness: with track counts `[10, 10, 12]` and only the 12-track
release official, the selector returns the 12-track official release. -/
theorem C6_witness :
    ∃ r, chooseRelease
        [Release.mk 10 "Promotional".data 1, Release.mk 10 "Bootleg".data 1,
          Release.mk 12 "Official".data 1] = some r ∧
      isOfficial r = true ∧ r.trackCount = 12 := by
  obtain ⟨r, hcr, hmem, hmax, hmode, hoff, hfirst⟩ := C6_chooseRelease
    [Release.mk 10 "Promotional".data 1, Release.mk 10 "Bootleg".data 1,
      Release.mk 12 "Official".data 1] (by decide)
  have hval : chooseRelease
      [Release.mk 10 "Promotional".data 1, Release.mk 10 "Bootleg".data 1,
        Release.mk 12 "Official".data 1] =
      some (Release.mk 12 "Official".data 1) := by decide
  rw [hval] at hcr
  have hr : r = Release.mk 12 "Official".data 1 := by
    injection hcr with h1
    exact h1.symm
  exact ⟨r, hval ▸ (hr ▸ rfl), by rw [hr]; decide, by rw [hr]⟩

/-! ### Similarity scorer (C4) -/

lemma levD_nil (bs : Str) : levD [] bs = bs.length := rfl

lemma levD_cons_nil (a : Char) (as : Str) :
    levD (a :: as) [] = levD as [] + 1 := rfl

lemma levD_cons_cons (a b : Char) (as bs : Str) :
    levD (a :: as) (b :: bs) =
      min (min (levD as (b :: bs) + 1) (levD (a :: as) bs + 1))
        (levD as bs + subCost a b) := rfl

lemma levD_self (a : Str) : levD a a = 0 := by
  induction a with
  | nil => rfl
  | cons x xs ih =>
    rw [levD_cons_cons, ih, subCost]
    simp

lemma tails_head (bs : Str) : ∃ t, bs.tails = bs :: t := by
  cases bs <;> simp [List.tails]

lemma suffRow_spec (a : Char) (as : Str) :
    ∀ bs : Str, suffRow a bs (bs.tails.map (levD as)) =
      bs.tails.map (levD (a :: as)) := by
  intro bs
  induction bs with
  | nil => simp [suffRow, List.tails, levD, levRowFn]
  | cons b bs ih =>
    obtain ⟨t, ht⟩ := tails_head bs
    rw [List.tails_cons, List.map_cons, ht, List.map_cons]
    have hin : levD as bs :: t.map (levD as) = bs.tails.map (levD as) := by
      rw [ht, List.map_cons]
    rw [suffRow, hin, ih, ht, List.map_cons]
    rfl

lemma levRows_spec (bs : Str) (as : Str) :
    as.foldr (fun a next => suffRow a bs next) (baseRow bs) =
      bs.tails.map (levD as) := by
  induction as with
  | nil =>
    unfold baseRow
    apply List.map_congr_left
    intro t _
    rw [levD_nil]
  | cons a as ih => rw [List.foldr_cons, ih, suffRow_spec]

lemma levDP_eq (as bs : Str) : levDP as bs = levD as bs := by
  unfold levDP
  rw [levRows_spec]
  obtain ⟨t, ht⟩ := tails_head bs
  rw [ht, List.map_cons]
  rfl

lemma ratioQ_le_one (a b : Str) : ratioQ a b ≤ 1 := by
  unfold ratioQ
  by_cases hab : a = b
  · simp [hab]
  · rw [if_neg hab]
    by_cases he : a = [] || b = []
    · simp [he]
    · rw [if_neg he]
      have hnum : (0 : ℚ) ≤ (levDP a b : ℚ) := by positivity
      have hden : (0 : ℚ) ≤ max (utf8Len a : ℚ) (utf8Len b : ℚ) :=
        le_max_of_le_left (by positivity)
      have := div_nonneg hnum hden
      linarith

lemma ratioWithTruncationQ_le_one (e a : Str) (sep : Char) :
    ratioWithTruncationQ e a sep ≤ 1 := by
  unfold ratioWithTruncationQ
  by_cases h1 : fieldsWs e = []
  · simp [h1]
  · rw [if_neg h1]
    by_cases h2 : (splitOnChar sep a).length ≤ (fieldsWs e).length <;>
      simp only [h2, if_true, if_false] <;> apply ratioQ_le_one

lemma maxScore_ge_init (l : List ℚ) (init : ℚ) :
    init ≤ l.foldl (fun m r => if r > m then r else m) init := by
  induction l generalizing init with
  | nil => simp
  | cons r l ih =>
    rw [List.foldl_cons]
    refine le_trans ?_ (ih _)
    by_cases hr : r > init
    · rw [if_pos hr]; linarith
    · rw [if_neg hr]

lemma maxScore_le (l : List ℚ) (init : ℚ) (hinit : init ≤ 1)
    (hl : ∀ r ∈ l, r ≤ 1) :
    l.foldl (fun m r => if r > m then r else m) init ≤ 1 := by
  induction l generalizing init with
  | nil => simpa
  | cons r l ih =>
    rw [List.foldl_cons]
    refine ih _ ?_ (fun x hx => hl x (List.mem_cons_of_mem _ hx))
    by_cases hr : r > init
    · rw [if_pos hr]; exact hl r (by simp)
    · rwa [if_neg hr]

lemma calculateBestScore_nonneg (e a : Str) : 0 ≤ calculateBestScore e a := by
  unfold calculateBestScore maxScore
  apply maxScore_ge_init

lemma calculateBestScore_le_one (e a : Str) : calculateBestScore e a ≤ 1 := by
  unfold calculateBestScore maxScore
  apply maxScore_le _ _ (by norm_num)
  intro r hr
  simp only [List.mem_cons, List.mem_singleton, List.not_mem_nil, or_false]
    at hr
  rcases hr with h | h | h | h <;> subst h
  · exact ratioQ_le_one _ _
  all_goals exact ratioWithTruncationQ_le_one _ _ _

/-- C4 (amended): the base ratio is 1 for equal strings (including both
empty) and 0 when exactly one is empty; otherwise it equals
`1 - d(a,b) / max (len a) (len b)` where `d` is the library's edit
distance with substitution cost 2 (not the standard unit-cost edit
distance) and `len` is the UTF-8 byte length (not the code-point count),
so the base ratio itself can drop below 0; the overall score (the maximum
of the base ratio and the truncation variants, clamped below by the
0-initialised running maximum) always lies in [0, 1]. -/
theorem C4_score (a b : Str) :
    (a = b → ratioQ a b = 1) ∧
    (a ≠ b → (a = [] ∨ b = []) → ratioQ a b = 0) ∧
    (a ≠ [] → b ≠ [] → ratioQ a b =
      1 - (levD a b : ℚ) / (max (utf8Len a) (utf8Len b) : ℚ)) ∧
    0 ≤ calculateBestScore a b ∧ calculateBestScore a b ≤ 1 := by
  refine ⟨?_, ?_, ?_, calculateBestScore_nonneg a b,
    calculateBestScore_le_one a b⟩
  · intro hab
    simp [ratioQ, hab]
  · intro hab he
    unfold ratioQ
    rw [if_neg hab, if_pos (by rcases he with h | h <;> simp [h])]
  · intro ha hb
    unfold ratioQ
    by_cases hab : a = b
    · subst hab
      rw [if_pos rfl, levD_self]
      simp
    · rw [if_neg hab, if_neg (by simp [ha, hb]), levDP_eq]

/-- C4 counterexample: with the standard unit-cost code-point edit
distance the claimed formula gives 0 for `"ab"`/`"cd"` and 1/2 for
`"αx"`/`"yx"`, but the code computes -1 (substitutions cost 2) and 1/3
(byte-length denominator) respectively. -/
theorem C4_distance :
    ratioQ "ab".data "cd".data = -1 ∧
    (1 - (levStd "ab".data "cd".data : ℚ) /
      (max ("ab".data.length) ("cd".data.length) : ℚ)) = 0 ∧
    ratioQ "αx".data "yx".data = 1 / 3 ∧
    (1 - (levStd "αx".data "yx".data : ℚ) /
      (max ("αx".data.length) ("yx".data.length) : ℚ)) = 1 / 2 := by
  decide

/-- C4 witness: the amended formula and bounds at concrete inputs. -/
theorem C4_witness :
    ratioQ "kitten".data "sitting".data =
      1 - (levD "kitten".data "sitting".data : ℚ) /
        (max (utf8Len "kitten".data) (utf8Len "sitting".data) : ℚ) ∧
    ratioQ "hello".data "hello".data = 1 ∧
    ratioQ "hello".data [] = 0 ∧
    0 ≤ calculateBestScore "hello".data "world".data ∧
    calculateBestScore "hello".data "world".data ≤ 1 := by
  have h1 := C4_score "kitten".data "sitting".data
  have h2 := C4_score "hello".data "hello".data
  have h3 := C4_score "hello".data []
  have h4 := C4_score "hello".data "world".data
  exact ⟨h1.2.2.1 (by decide) (by decide), h2.1 rfl,
    h3.2.1 (by decide) (Or.inr rfl), h4.2.2.2.1, h4.2.2.2.2⟩

/-! ### Track-set matcher (C3) -/

lemma bestStep_eq (e : Str) (best : ℚ) (f : Str) :
    bestStep e best f =
      if calculateBestScore e (extractFilename f) > best then
        calculateBestScore e (extractFilename f)
      else best := rfl

lemma bestFold_spec (e : Str) (files : List Str) (init : ℚ) :
    (files.foldl (bestStep e) init = init ∨
      ∃ f ∈ files, files.foldl (bestStep e) init =
        calculateBestScore e (extractFilename f)) ∧
    init ≤ files.foldl (bestStep e) init ∧
    (∀ f ∈ files, calculateBestScore e (extractFilename f) ≤
      files.foldl (bestStep e) init) := by
  induction files generalizing init with
  | nil => simp
  | cons g l ih =>
    simp only [List.foldl_cons]
    obtain ⟨ihmem, ihinit, ihge⟩ := ih (bestStep e init g)
    have hinit : init ≤ bestStep e init g := by
      rw [bestStep_eq]
      by_cases h : calculateBestScore e (extractFilename g) > init
      · rw [if_pos h]; linarith
      · rw [if_neg h]
    have hrle : calculateBestScore e (extractFilename g) ≤
        bestStep e init g := by
      rw [bestStep_eq]
      by_cases h : calculateBestScore e (extractFilename g) > init
      · rw [if_pos h]
      · rw [if_neg h]; linarith [not_lt.mp h]
    refine ⟨?_, hinit.trans ihinit, ?_⟩
    · rcases ihmem with h | ⟨f, hf, h⟩
      · by_cases hcase : calculateBestScore e (extractFilename g) > init
        · rw [h, bestStep_eq, if_pos hcase]
          exact Or.inr ⟨g, by simp, rfl⟩
        · rw [h, bestStep_eq, if_neg hcase]
          exact Or.inl rfl
      · exact Or.inr ⟨f, List.mem_cons_of_mem _ hf, h⟩
    · intro f hf
      rcases List.mem_cons.mp hf with hf | hf
      · subst hf
        exact hrle.trans ihinit
      · exact ihge f hf

lemma bestScoreOver_nonneg (files : List Str) (e : Str) :
    0 ≤ bestScoreOver files e := (bestFold_spec e files 0).2.1

lemma bestScoreOver_ge (files : List Str) (e : Str) :
    ∀ f ∈ files, calculateBestScore e (extractFilename f) ≤
      bestScoreOver files e := (bestFold_spec e files 0).2.2

lemma bestScoreOver_attained (files : List Str) (e : Str)
    (h : files ≠ []) : ∃ f ∈ files,
      bestScoreOver files e = calculateBestScore e (extractFilename f) := by
  rcases (bestFold_spec e files 0).1 with h0 | hmem
  · obtain ⟨g, l, rfl⟩ : ∃ g l, files = g :: l := by
      cases files with
      | nil => exact absurd rfl h
      | cons g l => exact ⟨g, l, rfl⟩
    refine ⟨g, by simp, ?_⟩
    have h1 := bestScoreOver_ge (g :: l) e g (by simp)
    have h2 := calculateBestScore_nonneg e (extractFilename g)
    have h3 : bestScoreOver (g :: l) e = 0 := h0
    linarith
  · exact hmem

lemma matchFold_spec (th : ℚ) (files : List Str) (exp : List Str)
    (acc : Nat × ℚ) :
    exp.foldl (trackStep th files) acc =
    (acc.1 +
        (exp.filter (fun e => th ≤ bestScoreOver files e)).length,
      acc.2 +
        ((exp.filter (fun e => th ≤ bestScoreOver files e)).map
          (bestScoreOver files)).sum) := by
  induction exp generalizing acc with
  | nil => simp
  | cons e l ih =>
    simp only [List.foldl_cons, List.filter_cons]
    have hstep : trackStep th files acc e =
        if bestScoreOver files e ≥ th then
          (acc.1 + 1, acc.2 + bestScoreOver files e)
        else acc := rfl
    by_cases hp : th ≤ bestScoreOver files e
    · rw [hstep, if_pos hp, ih]
      have hd : decide (th ≤ bestScoreOver files e) = true := by
        simpa using hp
      rw [hd, if_pos rfl]
      refine Prod.ext ?_ ?_
      · simp only [List.length_cons]
        omega
      · simp only [List.map_cons, List.sum_cons]
        ring
    · rw [hstep, if_neg hp, ih]
      have hd : decide (th ≤ bestScoreOver files e) = false := by
        simpa using hp
      rw [hd]
      simp

/-- C3: the matcher returns `(false, 0)` whenever either list is empty or
there are fewer candidate files than expected tracks; otherwise it matches
exactly when every expected track's best score over all candidate
filenames (extension stripped) reaches the threshold, in which case the
returned average is the mean of the per-track best scores; the per-track
best score bounds every candidate's score from above and is attained by
some candidate. -/
theorem C3_matchTracks (th : ℚ) (exp files : List Str) :
    ((exp = [] ∨ files = [] ∨ files.length < exp.length) →
      matchTracks th exp files = (false, 0)) ∧
    (exp ≠ [] → files ≠ [] → exp.length ≤ files.length →
      (((matchTracks th exp files).1 = true) ↔
        ∀ t ∈ exp, th ≤ bestScoreOver files t) ∧
      ((matchTracks th exp files).1 = true →
        (matchTracks th exp files).2 =
          (exp.map (bestScoreOver files)).sum / (exp.length : ℚ)) ∧
      (∀ t ∈ exp, ∀ f ∈ files,
        calculateBestScore t (extractFilename f) ≤ bestScoreOver files t) ∧
      (∀ t ∈ exp, ∃ f ∈ files,
        bestScoreOver files t = calculateBestScore t (extractFilename f))) := by
  constructor
  · intro h
    unfold matchTracks
    rcases h with h | h | h
    · rw [if_pos (by simp [h])]
    · rw [if_pos (by simp [h])]
    · by_cases hfe : (decide (exp = []) || decide (files = [])) = true
      · rw [if_pos hfe]
      · rw [if_neg hfe, if_pos h]
  · intro hexp hfiles hlen
    have hne : ¬(exp = [] || files = []) = true := by
      simp [hexp, hfiles]
    have hnl : ¬files.length < exp.length := not_lt.mpr hlen
    have hunf : matchTracks th exp files =
        (if (exp.filter (fun e => th ≤ bestScoreOver files e)).length =
            exp.length then
          (true,
            ((exp.filter (fun e => th ≤ bestScoreOver files e)).map
              (bestScoreOver files)).sum / (exp.length : ℚ))
        else (false, 0)) := by
      unfold matchTracks
      rw [if_neg hne, if_neg hnl, matchFold_spec]
      simp
    have hiff : (exp.filter
        (fun e => th ≤ bestScoreOver files e)).length = exp.length ↔
        ∀ t ∈ exp, th ≤ bestScoreOver files t := by
      constructor
      · intro hl
        have hsub := List.filter_sublist
          (p := fun e => decide (th ≤ bestScoreOver files e)) (l := exp)
        have := hsub.eq_of_length hl
        intro t ht
        have := List.filter_eq_self.mp this t ht
        simpa using this
      · intro hall
        rw [List.filter_eq_self.mpr (fun a ha => by simpa using hall a ha)]
    refine ⟨?_, ?_, fun t _ => bestScoreOver_ge files t,
      fun t _ => bestScoreOver_attained files t hfiles⟩
    · rw [hunf]
      by_cases hc : (exp.filter
          (fun e => th ≤ bestScoreOver files e)).length = exp.length
      · rw [if_pos hc]
        simpa using hiff.mp hc
      · rw [if_neg hc]
        simp only [Bool.false_eq_true, false_iff]
        intro hall
        exact hc (hiff.mpr hall)
    · intro htrue
      rw [hunf] at htrue ⊢
      by_cases hc : (exp.filter
          (fun e => th ≤ bestScoreOver files e)).length = exp.length
      · rw [if_pos hc] at htrue ⊢
        have hall := hiff.mp hc
        have hfe : exp.filter (fun e => th ≤ bestScoreOver files e) = exp :=
          List.filter_eq_self.mpr (fun a ha => by simpa using hall a ha)
        simp [hfe]
      · rw [if_neg hc] at htrue
        simp at htrue

/-- C3 witness: the end-to-end example — two expected titles against two
prefixed filenames at threshold 4/5 — matches with average 1, and the
theorem's characterization instantiates to it. -/
theorem C3_witness :
    matchTracks (4 / 5) ["One".data, "Two".data]
      ["01 - Artist X - One.flac".data, "02 - Artist X - Two.flac".data] =
      (true, 1) ∧
    (∀ t ∈ (["One".data, "Two".data] : List Str), (4 / 5 : ℚ) ≤
      bestScoreOver
        ["01 - Artist X - One.flac".data, "02 - Artist X - Two.flac".data]
        t) := by
  have h := C3_matchTracks (4 / 5) ["One".data, "Two".data]
    ["01 - Artist X - One.flac".data, "02 - Artist X - Two.flac".data]
  have hiff := (h.2 (by decide) (by decide) (by decide)).1
  exact ⟨by decide, hiff.mp (by decide)⟩

/-! ### Monitor retry step (C1) -/

lemma partition_err_sub (files : List DownloadFile) :
    ∀ f ∈ (partitionFiles files).2.1, f ∈ files := by
  rw [partitionFiles_eq]
  intro f hf
  exact List.mem_of_mem_filter hf

lemma partition_err_nonempty_files {files : List DownloadFile}
    (h : (partitionFiles files).2.1 ≠ []) : files ≠ [] := by
  intro hnil
  subst hnil
  exact h rfl

/-- C1: on a poll tick, for a still-pending item whose located directory
listing has at least one errored file (and whose files all lie in the
item's directory), the step cancels exactly the errored files; below the
retry budget of 3 it increments the counter, re-enqueues exactly the
errored files and keeps the item pending; at the budget it keeps the item
pending while files are in progress, and otherwise finalizes it —
succeeded exactly when at least one file completed, failed (pending
cleared, succeeded not set) when none did. -/
theorem C1_retryStep (downloads : Listing) (item : DownloadedItem)
    (st : ItemState) (hp : st.pending = true) (hs : st.succeeded = false)
    (herr : (partitionFiles (findDirFiles downloads item)).2.1 ≠ [])
    (hdir : ∀ f ∈ findDirFiles downloads item,
      pathDir (normSlash f.filename) = item.directory) :
    (tickItem downloads item st).2.cancelled =
      (partitionFiles (findDirFiles downloads item)).2.1 ∧
    (st.retryCount < 3 →
      (tickItem downloads item st).1.pending = true ∧
      (tickItem downloads item st).1.succeeded = false ∧
      (tickItem downloads item st).1.retryCount = st.retryCount + 1 ∧
      (tickItem downloads item st).2.enqueued =
        (partitionFiles (findDirFiles downloads item)).2.1.map
          (fun f => EnqueueFile.mk f.filename f.size)) ∧
    (3 ≤ st.retryCount →
      (partitionFiles (findDirFiles downloads item)).2.2 ≠ [] →
      (tickItem downloads item st).1 = st ∧
      (tickItem downloads item st).2.enqueued = []) ∧
    (3 ≤ st.retryCount →
      (partitionFiles (findDirFiles downloads item)).2.2 = [] →
      (tickItem downloads item st).1.pending = false ∧
      (tickItem downloads item st).1.retryCount = st.retryCount ∧
      ((tickItem downloads item st).1.succeeded = true ↔
        (partitionFiles (findDirFiles downloads item)).1 ≠ []) ∧
      (tickItem downloads item st).2.enqueued = []) := by
  have hfiles : findDirFiles downloads item ≠ [] :=
    partition_err_nonempty_files herr
  have hfilter :
      ((partitionFiles (findDirFiles downloads item)).2.1.filter
        (fun f => pathDir (normSlash f.filename) = item.directory)) =
      (partitionFiles (findDirFiles downloads item)).2.1 :=
    List.filter_eq_self.mpr (fun f hf => by
      simpa using hdir f (partition_err_sub _ f hf))
  have hstep : tickItem downloads item st =
      (let erroredFiles := (partitionFiles (findDirFiles downloads item)).2.1
       let inProgressFiles :=
        (partitionFiles (findDirFiles downloads item)).2.2
       let completedFiles := (partitionFiles (findDirFiles downloads item)).1
       let retryEffects : TickEffects :=
         if st.retryCount < maxRetries then
           ⟨erroredFiles,
             (erroredFiles.filter
               (fun f => pathDir (normSlash f.filename) = item.directory)).map
               (fun f => ⟨f.filename, f.size⟩)⟩
         else ⟨erroredFiles, []⟩
       if st.retryCount < maxRetries then
         ({ st with retryCount := st.retryCount + 1 }, retryEffects)
       else if inProgressFiles ≠ [] then (st, retryEffects)
       else if completedFiles ≠ [] then
         ({ st with pending := false, succeeded := true }, retryEffects)
       else ({ st with pending := false }, retryEffects)) := by
    unfold tickItem
    rw [hp]
    simp only [Bool.not_true, Bool.false_eq_true, if_false]
    rw [if_neg hfiles, if_pos herr]
  rw [hstep]
  by_cases hlt : st.retryCount < maxRetries
  · simp only [if_pos hlt]
    have hnge : ¬3 ≤ st.retryCount := by rw [maxRetries] at hlt; omega
    exact ⟨trivial, fun _ => ⟨hp, hs, trivial, by rw [hfilter]⟩,
      fun hge _ => absurd hge hnge, fun hge _ => absurd hge hnge⟩
  · have hnl3 : ¬st.retryCount < 3 := by rwa [maxRetries] at hlt
    simp only [if_neg hlt]
    by_cases hprog : (partitionFiles (findDirFiles downloads item)).2.2 ≠ []
    · simp only [if_pos hprog]
      exact ⟨trivial, fun hlt3 => absurd hlt3 hnl3,
        fun _ _ => ⟨trivial, trivial⟩, fun _ hnil => absurd hnil hprog⟩
    · simp only [if_neg hprog]
      by_cases hcomp : (partitionFiles (findDirFiles downloads item)).1 ≠ []
      · simp only [if_pos hcomp]
        exact ⟨trivial, fun hlt3 => absurd hlt3 hnl3,
          fun _ hpr => absurd hpr hprog,
          fun _ _ => ⟨trivial, trivial, by simp [hcomp], trivial⟩⟩
      · simp only [if_neg hcomp]
        have hceq : (partitionFiles (findDirFiles downloads item)).1 = [] :=
          not_ne_iff.mp hcomp
        exact ⟨trivial, fun hlt3 => absurd hlt3 hnl3,
          fun _ hpr => absurd hpr hprog,
          fun _ _ => ⟨trivial, trivial, by simp [hs, hceq], trivial⟩⟩


/-- C1 witness: a pending item with one errored and one completed file and
retry budget left — the tick cancels and re-enqueues exactly the errored
file and keeps the item pending with the counter bumped. -/
theorem C1_witness :
    (tickItem
      [UserDownloads.mk "p1".data [DirectoryDownloads.mk "a\\d".data
        [DownloadFile.mk "f1".data "a/d/one.flac".data
          "Completed, Errored".data 5,
         DownloadFile.mk "f2".data "a/d/two.flac".data "InProgress".data 7]]]
      (DownloadedItem.mk "ar".data "al".data 1 "d".data "p1".data
        "a/d".data 1 [])
      (ItemState.mk true false 0)).2.cancelled =
      [DownloadFile.mk "f1".data "a/d/one.flac".data
        "Completed, Errored".data 5] ∧
    (tickItem
      [UserDownloads.mk "p1".data [DirectoryDownloads.mk "a\\d".data
        [DownloadFile.mk "f1".data "a/d/one.flac".data
          "Completed, Errored".data 5,
         DownloadFile.mk "f2".data "a/d/two.flac".data "InProgress".data 7]]]
      (DownloadedItem.mk "ar".data "al".data 1 "d".data "p1".data
        "a/d".data 1 [])
      (ItemState.mk true false 0)).1.pending = true ∧
    (tickItem
      [UserDownloads.mk "p1".data [DirectoryDownloads.mk "a\\d".data
        [DownloadFile.mk "f1".data "a/d/one.flac".data
          "Completed, Errored".data 5,
         DownloadFile.mk "f2".data "a/d/two.flac".data "InProgress".data 7]]]
      (DownloadedItem.mk "ar".data "al".data 1 "d".data "p1".data
        "a/d".data 1 [])
      (ItemState.mk true false 0)).1.retryCount = 1 ∧
    (tickItem
      [UserDownloads.mk "p1".data [DirectoryDownloads.mk "a\\d".data
        [DownloadFile.mk "f1".data "a/d/one.flac".data
          "Completed, Errored".data 5,
         DownloadFile.mk "f2".data "a/d/two.flac".data "InProgress".data 7]]]
      (DownloadedItem.mk "ar".data "al".data 1 "d".data "p1".data
        "a/d".data 1 [])
      (ItemState.mk true false 0)).2.enqueued =
      [EnqueueFile.mk "a/d/one.flac".data 5] := by
  have h := C1_retryStep
    [UserDownloads.mk "p1".data [DirectoryDownloads.mk "a\\d".data
      [DownloadFile.mk "f1".data "a/d/one.flac".data
        "Completed, Errored".data 5,
       DownloadFile.mk "f2".data "a/d/two.flac".data "InProgress".data 7]]]
    (DownloadedItem.mk "ar".data "al".data 1 "d".data "p1".data
      "a/d".data 1 [])
    (ItemState.mk true false 0) rfl rfl (by decide) (by decide)
  obtain ⟨hc, hr, _, _⟩ := h
  obtain ⟨hpend, _, hcount, henq⟩ := hr (by decide)
  refine ⟨?_, hpend, by rw [hcount], ?_⟩
  · rw [hc]; decide
  · rw [henq]; decide

/-! ### Monitor loop (C2) -/

lemma tickItem_nonpending (d : Listing) (it : DownloadedItem)
    (st : ItemState) (hp : st.pending = false) :
    tickItem d it st = (st, ⟨[], []⟩) := by
  unfold tickItem
  rw [hp]
  simp

lemma tickItem_drop (d : Listing) (it : DownloadedItem) (st : ItemState)
    (hp : st.pending = true) (hnil : findDirFiles d it = []) :
    tickItem d it st = ({ st with pending := false }, ⟨[], []⟩) := by
  unfold tickItem
  rw [hp, hnil]
  simp

lemma tickItem_succ_inv (d : Listing) (it : DownloadedItem) (st : ItemState)
    (hinv : st.succeeded = true → st.pending = false) :
    (tickItem d it st).1.succeeded = true →
      (tickItem d it st).1.pending = false := by
  by_cases hp : st.pending
  · unfold tickItem
    rw [hp]
    simp only [Bool.not_true, Bool.false_eq_true, if_false]
    by_cases hnil : findDirFiles d it = []
    · rw [if_pos hnil]
      simp
    · rw [if_neg hnil]
      split_ifs <;> simp_all
  · rw [tickItem_nonpending d it st (by simpa using hp)]
    exact hinv

lemma mem_tickAll {d : Listing} {x : ItemState} :
    ∀ {items : List DownloadedItem} {sts : List ItemState},
      x ∈ tickAll d items sts →
      ∃ it s, it ∈ items ∧ s ∈ sts ∧ x = (tickItem d it s).1 := by
  intro items
  induction items with
  | nil => intro sts h; simp [tickAll] at h
  | cons it its ih =>
    intro sts h
    cases sts with
    | nil => simp [tickAll] at h
    | cons s ss =>
      rcases List.mem_cons.mp h with hx | hx
      · exact ⟨it, s, by simp, by simp, hx⟩
      · obtain ⟨it', s', h1, h2, h3⟩ := ih hx
        exact ⟨it', s', List.mem_cons_of_mem _ h1,
          List.mem_cons_of_mem _ h2, h3⟩

lemma tickAll_inv (d : Listing) (items : List DownloadedItem)
    (sts : List ItemState)
    (h : ∀ st ∈ sts, st.succeeded = true → st.pending = false) :
    ∀ st ∈ tickAll d items sts, st.succeeded = true → st.pending = false := by
  intro st hst
  obtain ⟨it, s, _, hs, hx⟩ := mem_tickAll hst
  rw [hx]
  exact tickItem_succ_inv d it s (h s hs)

lemma runMonitorAux_inv (env : Nat → Listing) (items : List DownloadedItem) :
    ∀ (fuel t : Nat) (sts : List ItemState),
      (∀ st ∈ sts, st.succeeded = true → st.pending = false) →
      ∀ st ∈ (runMonitorAux env items fuel t sts).1,
        st.succeeded = true → st.pending = false := by
  intro fuel
  induction fuel with
  | zero =>
    intro t sts h
    unfold runMonitorAux
    by_cases hc : countPending (tickAll (env t) items sts) = 0 <;>
      simp only [hc, if_true, if_false] <;>
      exact tickAll_inv _ _ _ h
  | succ fuel ih =>
    intro t sts h
    unfold runMonitorAux
    by_cases hc : countPending (tickAll (env t) items sts) = 0
    · simp only [hc, if_true]
      exact tickAll_inv _ _ _ h
    · simp only [hc, if_false]
      exact ih (t + 1) _ (tickAll_inv _ _ _ h)

lemma runMonitorAux_stop (env : Nat → Listing) (items : List DownloadedItem) :
    ∀ (fuel t : Nat) (sts : List ItemState),
      countPending (runMonitorAux env items fuel t sts).1 = 0 ∨
        (runMonitorAux env items fuel t sts).2 = t + fuel + 1 := by
  intro fuel
  induction fuel with
  | zero =>
    intro t sts
    unfold runMonitorAux
    by_cases hc : countPending (tickAll (env t) items sts) = 0 <;>
      simp [hc]
  | succ fuel ih =>
    intro t sts
    unfold runMonitorAux
    by_cases hc : countPending (tickAll (env t) items sts) = 0
    · simp [hc]
    · simp only [hc, if_false]
      rcases ih (t + 1) (tickAll (env t) items sts) with h | h
      · exact Or.inl h
      · refine Or.inr ?_
        rw [h]
        omega

lemma tickAll_length (d : Listing) (items : List DownloadedItem)
    (sts : List ItemState) :
    (tickAll d items sts).length = min items.length sts.length :=
  List.length_zipWith _ _ _

lemma tickAll_perm (d : Listing) (items : List DownloadedItem)
    (sts : List ItemState) (i : Nat) (hlen : sts.length = items.length)
    (hp : (sts.getD i dState).pending = false) :
    (tickAll d items sts).getD i dState = sts.getD i dState := by
  rw [List.getD_eq_getElem?_getD] at hp ⊢
  rw [List.getD_eq_getElem?_getD]
  by_cases hi : i < sts.length
  · have hii : i < items.length := by omega
    have hz : (tickAll d items sts)[i]? =
        some (tickItem d items[i] sts[i]).1 := by
      unfold tickAll
      rw [List.getElem?_zipWith]
      rw [List.getElem?_eq_getElem hii, List.getElem?_eq_getElem hi]
    have hsome : sts[i]? = some sts[i] := List.getElem?_eq_getElem hi
    rw [hsome] at hp
    rw [hz, hsome]
    simp only [Option.getD_some] at hp ⊢
    rw [tickItem_nonpending d items[i] sts[i] hp]
  · have h1 : (tickAll d items sts)[i]? = none := by
      rw [List.getElem?_eq_none]
      rw [tickAll_length]
      omega
    have h2 : sts[i]? = none := by
      rw [List.getElem?_eq_none]
      omega
    rw [h1, h2]

lemma runMonitorAux_perm (env : Nat → Listing) (items : List DownloadedItem) :
    ∀ (fuel t : Nat) (sts : List ItemState) (i : Nat),
      sts.length = items.length →
      (sts.getD i dState).pending = false →
      ((runMonitorAux env items fuel t sts).1.getD i dState) =
        sts.getD i dState := by
  intro fuel
  induction fuel with
  | zero =>
    intro t sts i hlen hp
    unfold runMonitorAux
    by_cases hc : countPending (tickAll (env t) items sts) = 0 <;>
      simp only [hc, if_true, if_false] <;>
      exact tickAll_perm _ _ _ _ hlen hp
  | succ fuel ih =>
    intro t sts i hlen hp
    unfold runMonitorAux
    by_cases hc : countPending (tickAll (env t) items sts) = 0
    · simp only [hc, if_true]
      exact tickAll_perm _ _ _ _ hlen hp
    · simp only [hc, if_false]
      have hlen' : (tickAll (env t) items sts).length = items.length := by
        rw [tickAll_length]
        omega
      rw [ih (t + 1) _ i hlen' (by
        rw [tickAll_perm _ _ _ _ hlen hp]
        exact hp)]
      exact tickAll_perm _ _ _ _ hlen hp

/-- C2: the monitoring loop stops exactly when no item remains pending or
when the tick budget (the stall timeout measured from the phase's start)
is exhausted, and returns exactly the items marked succeeded at that
point; an item still pending in the final state is never marked succeeded
(so it is not returned); an item whose (peer, directory) entry is absent
from the tick's listing is dropped — no longer pending, its succeeded flag
untouched — and a non-pending item is never modified by any further
polling, so a dropped item is never counted as succeeded. -/
theorem C2_monitor (env : Nat → Listing) (fuel : Nat)
    (items : List DownloadedItem) :
    (items ≠ [] → monitorDownloads env fuel items =
      ((items.zip (runMonitorAux env items fuel 0 (initStates items)).1).filter
        (fun p => p.2.succeeded)).map (·.1)) ∧
    (countPending (runMonitorAux env items fuel 0 (initStates items)).1 = 0 ∨
      (runMonitorAux env items fuel 0 (initStates items)).2 = fuel + 1) ∧
    (∀ st ∈ (runMonitorAux env items fuel 0 (initStates items)).1,
      st.pending = true → st.succeeded = false) ∧
    (∀ (d : Listing) (it : DownloadedItem) (st : ItemState),
      st.pending = true → findDirFiles d it = [] →
      tickItem d it st = ({ st with pending := false }, ⟨[], []⟩)) ∧
    (∀ (fuel' t : Nat) (sts : List ItemState) (i : Nat),
      sts.length = items.length →
      (sts.getD i dState).pending = false →
      ((runMonitorAux env items fuel' t sts).1.getD i dState) =
        sts.getD i dState) := by
  refine ⟨?_, ?_, ?_, tickItem_drop, runMonitorAux_perm env items⟩
  · intro hne
    unfold monitorDownloads
    rw [if_neg hne]
  · have := runMonitorAux_stop env items fuel 0 (initStates items)
    simpa using this
  · intro st hst hpend
    have hinv := runMonitorAux_inv env items fuel 0 (initStates items)
      (by
        intro s hs
        unfold initStates at hs
        obtain ⟨_, _, rfl⟩ := List.mem_map.mp hs
        simp) st hst
    cases hsu : st.succeeded
    · rfl
    · rw [hinv hsu] at hpend
      exact absurd hpend (by simp)

/-- C2 witness: one item stuck in-progress forever times out after the
tick budget with zero succeeded items, and the theorem's result
characterization instantiates to it. -/
theorem C2_witness :
    monitorDownloads
      (fun _ => [UserDownloads.mk "p1".data [DirectoryDownloads.mk
        "a/d".data [DownloadFile.mk "f1".data "a/d/one.flac".data
          "InProgress".data 5]]]) 2
      [DownloadedItem.mk "ar".data "al".data 1 "d".data "p1".data
        "a/d".data 1 []] =
      (([DownloadedItem.mk "ar".data "al".data 1 "d".data "p1".data
          "a/d".data 1 []].zip
        (runMonitorAux
          (fun _ => [UserDownloads.mk "p1".data [DirectoryDownloads.mk
            "a/d".data [DownloadFile.mk "f1".data "a/d/one.flac".data
              "InProgress".data 5]]])
          [DownloadedItem.mk "ar".data "al".data 1 "d".data "p1".data
            "a/d".data 1 []] 2 0
          (initStates [DownloadedItem.mk "ar".data "al".data 1 "d".data
            "p1".data "a/d".data 1 []])).1).filter
        (fun p => p.2.succeeded)).map (·.1) ∧
    monitorDownloads
      (fun _ => [UserDownloads.mk "p1".data [DirectoryDownloads.mk
        "a/d".data [DownloadFile.mk "f1".data "a/d/one.flac".data
          "InProgress".data 5]]]) 2
      [DownloadedItem.mk "ar".data "al".data 1 "d".data "p1".data
        "a/d".data 1 []] = [] := by
  have h := C2_monitor
    (fun _ => [UserDownloads.mk "p1".data [DirectoryDownloads.mk
      "a/d".data [DownloadFile.mk "f1".data "a/d/one.flac".data
        "InProgress".data 5]]]) 2
    [DownloadedItem.mk "ar".data "al".data 1 "d".data "p1".data
      "a/d".data 1 []]
  exact ⟨h.1 (by decide), by decide⟩

/-! ### Search-and-enqueue phase (C7, C8) -/

lemma searchScan_eq_find
    (ordd : SearchResult → List (Str × List Str) → List (Str × List Str))
    (enqOk : Str → Str → Bool) (ig allowed : List Str) (th : ℚ)
    (tracks : List Track) (album : Album) (release : Release) :
    ∀ results : List SearchResult,
      searchScan ordd enqOk ig allowed th tracks album release results =
      ((candidateSeq ordd ig allowed results).find?
        (fun c => (matchTracks th (tracks.map (·.title)) c.2.2.2).1 &&
          enqOk c.1.username c.2.2.1)).map
        (fun c => (buildItem album release tracks c.1 c.2.1 c.2.2.1,
          c.1.username, enqueueFilesFor c.2.1 c.2.2.1)) := by
  intro results
  induction results with
  | nil => rfl
  | cons result rest ih =>
    unfold searchScan candidateSeq
    rw [List.flatMap_cons]
    by_cases hig : ig.any (fun u => equalFold result.username u)
    · rw [if_pos hig, if_pos hig]
      simpa [candidateSeq] using ih
    · rw [if_neg hig, if_neg hig]
      by_cases hff : filterFiles allowed result.files = []
      · rw [if_pos hff]
        simp only [hff, if_pos rfl]
        simpa [candidateSeq] using ih
      · have hffne : ¬(filterFiles allowed result.files = []) := hff
        rw [if_neg hffne]
        simp only [hffne, if_neg, if_false]
        rw [List.find?_append, List.find?_map]
        have hpred : ((fun c : SearchResult × List SearchFile × Str ×
              List Str => (matchTracks th (tracks.map (·.title))
                c.2.2.2).1 && enqOk c.1.username c.2.2.1) ∘
            (fun p : Str × List Str =>
              (result, filterFiles allowed result.files, p.1, p.2))) =
            fun p : Str × List Str =>
              (matchTracks th (tracks.map (·.title)) p.2).1 &&
                enqOk result.username p.1 := rfl
        rw [hpred]
        cases hsd : (ordd result
            (groupByDir (filterFiles allowed result.files))).find?
            (fun p => (matchTracks th (tracks.map (·.title)) p.2).1 &&
              enqOk result.username p.1) with
        | some p =>
          unfold scanDirs
          rw [hsd]
          simp
        | none =>
          unfold scanDirs
          rw [hsd]
          simp only [Option.map_none', Option.none_or]
          simpa [candidateSeq] using ih

lemma mem_candidateSeq
    {ordd : SearchResult → List (Str × List Str) → List (Str × List Str)}
    {ig allowed : List Str} {results : List SearchResult}
    {c : SearchResult × List SearchFile × Str × List Str}
    (h : c ∈ candidateSeq ordd ig allowed results) :
    ∃ r ∈ results, c.1 = r ∧ c.2.1 = filterFiles allowed r.files ∧
      (c.2.2.1, c.2.2.2) ∈ ordd r (groupByDir (filterFiles allowed r.files))
    := by
  unfold candidateSeq at h
  obtain ⟨r, hr, hc⟩ := List.mem_flatMap.mp h
  by_cases hig : ig.any (fun u => equalFold r.username u)
  · rw [if_pos hig] at hc
    simp at hc
  · rw [if_neg hig] at hc
    by_cases hff : filterFiles allowed r.files = []
    · simp only [hff, if_pos rfl] at hc
      simp at hc
    · simp only [hff, if_neg, if_false] at hc
      obtain ⟨p, hp, hpc⟩ := List.mem_map.mp hc
      refine ⟨r, hr, ?_, ?_, ?_⟩
      · rw [← hpc]
      · rw [← hpc]
      · rw [← hpc]
        simpa using hp

/-- C7 counterexample: scanning does not stop at the first candidate group
that satisfies the matcher — when the enqueue request for that group fails
the code continues scanning, so with two matcher-satisfying directories
`A` and `B` and an enqueue outcome rejecting `A`, the produced item lies
in directory `B` even though the first matcher-satisfying group of the
candidate sequence is `A`. -/
theorem C7_scanContinues :
    (searchForAlbum (fun _ gs => gs) (fun _ d => decide (d = "B".data)) [] []
        0 [Track.mk "t".data 1] (Album.mk 0 "al".data "ar".data)
        (Release.mk 1 "Official".data 1)
        [SearchResult.mk "u".data
          [SearchFile.mk "A\\x.flac".data 1 none none none,
           SearchFile.mk "B\\y.flac".data 1 none none none]]).map
      (fun out => out.1.directory) = some "B".data ∧
    ((candidateSeq (fun _ gs => gs) [] []
        [SearchResult.mk "u".data
          [SearchFile.mk "A\\x.flac".data 1 none none none,
           SearchFile.mk "B\\y.flac".data 1 none none none]]).find?
        (fun c => (matchTracks 0 ["t".data] c.2.2.2).1)).map
      (fun c => c.2.2.1) = some "A".data ∧
    ("A".data : Str) ≠ "B".data := by decide

/-- C7 (amended): per album the search phase yields at most one item — for
every directory-map iteration order and every enqueue outcome it returns
exactly the first candidate group that satisfies the matcher and whose
enqueue request succeeds, where the candidate sequence walks peers in
search-response order (skipping ignored peers and peers left with no files
by the quality filter) and, within a peer, directories in the map
iteration order; matcher-satisfying groups whose enqueue fails are
skipped. -/
theorem C7_firstMatch
    (ordd : SearchResult → List (Str × List Str) → List (Str × List Str))
    (enqOk : Str → Str → Bool) (ig allowed : List Str) (th : ℚ)
    (tracks : List Track) (album : Album) (release : Release)
    (results : List SearchResult) :
    searchForAlbum ordd enqOk ig allowed th tracks album release results =
      ((candidateSeq ordd ig allowed results).find?
        (fun c => (matchTracks th (tracks.map (·.title)) c.2.2.2).1 &&
          enqOk c.1.username c.2.2.1)).map
        (fun c => (buildItem album release tracks c.1 c.2.1 c.2.2.1,
          c.1.username, enqueueFilesFor c.2.1 c.2.2.1)) :=
  searchScan_eq_find ordd enqOk ig allowed th tracks album release results

/-- C8: whenever the search phase produces an item, every enqueued file
and every entry of the item's track list refers to a file of the matched
directory that passed the quality filter for that peer's files. -/
theorem C8_filteredOnly
    (ordd : SearchResult → List (Str × List Str) → List (Str × List Str))
    (enqOk : Str → Str → Bool) (ig allowed : List Str) (th : ℚ)
    (tracks : List Track) (album : Album) (release : Release)
    (results : List SearchResult) (item : DownloadedItem) (user : Str)
    (enq : List EnqueueFile)
    (h : searchForAlbum ordd enqOk ig allowed th tracks album release
      results = some (item, user, enq)) :
    ∃ r ∈ results, ∃ dir : Str,
      user = r.username ∧ item.username = r.username ∧
      item.directory = dir ∧
      (∀ ef ∈ enq, ∃ f ∈ filterFiles allowed r.files,
        pathDir (normSlash f.filename) = dir ∧
        ef = EnqueueFile.mk f.filename f.size) ∧
      (∀ t ∈ item.tracks, ∃ f ∈ filterFiles allowed r.files,
        pathDir (normSlash f.filename) = dir ∧
        t.filename = pathBase (normSlash f.filename)) := by
  rw [searchForAlbum, searchScan_eq_find] at h
  cases hf : (candidateSeq ordd ig allowed results).find?
      (fun c => (matchTracks th (tracks.map (·.title)) c.2.2.2).1 &&
        enqOk c.1.username c.2.2.1) with
  | none =>
    rw [hf] at h
    exact Option.noConfusion h
  | some c =>
    rw [hf] at h
    simp only [Option.map_some', Option.some.injEq, Prod.mk.injEq] at h
    obtain ⟨r, hr, hc1, hc2, hgd⟩ :=
      mem_candidateSeq (List.mem_of_find?_eq_some hf)
    refine ⟨r, hr, c.2.2.1, ?_, ?_, ?_, ?_, ?_⟩
    · rw [← h.2.1, hc1]
    · rw [← h.1, hc1]
      rfl
    · rw [← h.1]
      rfl
    · intro ef hef
      rw [← h.2.2] at hef
      unfold enqueueFilesFor at hef
      obtain ⟨f, hf1, hf2⟩ := List.mem_map.mp hef
      have hf3 := List.mem_filter.mp hf1
      refine ⟨f, by rw [← hc2]; exact hf3.1, by simpa using hf3.2, hf2.symm⟩
    · intro t ht
      rw [← h.1] at ht
      unfold buildItem tracksFor at ht
      simp only at ht
      obtain ⟨f, hf1, hf2⟩ := List.mem_map.mp ht
      have hf3 := List.mem_filter.mp hf1
      refine ⟨f, by rw [← hc2]; exact hf3.1, by simpa using hf3.2, ?_⟩
      rw [← hf2]

/-- C8 witness: a concrete match — the quality filter drops the cover art,
and the produced enqueue list and track entries all come from the two
filtered flac files of the matched directory. -/
theorem C8_witness :
    ∃ r ∈ [SearchResult.mk "p1".data
        [SearchFile.mk "a\\d\\01 - One.flac".data 7 none (some 44100)
          (some 16),
         SearchFile.mk "a\\d\\02 - Two.flac".data 8 none (some 44100)
          (some 16),
         SearchFile.mk "a\\d\\cover.jpg".data 9 none none none]],
      ∃ dir : Str,
      ("p1".data : Str) = r.username ∧
      (DownloadedItem.mk "Art".data "Alb".data 9 "d".data "p1".data
        "a/d".data 1
        [DownloadedTrack.mk "01 - One.flac".data 1,
         DownloadedTrack.mk "02 - Two.flac".data 2]).username = r.username ∧
      (DownloadedItem.mk "Art".data "Alb".data 9 "d".data "p1".data
        "a/d".data 1
        [DownloadedTrack.mk "01 - One.flac".data 1,
         DownloadedTrack.mk "02 - Two.flac".data 2]).directory = dir ∧
      (∀ ef ∈ [EnqueueFile.mk "a\\d\\01 - One.flac".data 7,
          EnqueueFile.mk "a\\d\\02 - Two.flac".data 8],
        ∃ f ∈ filterFiles ["flac".data] r.files,
          pathDir (normSlash f.filename) = dir ∧
          ef = EnqueueFile.mk f.filename f.size) ∧
      (∀ t ∈ (DownloadedItem.mk "Art".data "Alb".data 9 "d".data "p1".data
          "a/d".data 1
          [DownloadedTrack.mk "01 - One.flac".data 1,
           DownloadedTrack.mk "02 - Two.flac".data 2]).tracks,
        ∃ f ∈ filterFiles ["flac".data] r.files,
          pathDir (normSlash f.filename) = dir ∧
          t.filename = pathBase (normSlash f.filename)) :=
  C8_filteredOnly (fun _ gs => gs) (fun _ _ => true) [] ["flac".data] (4 / 5)
    [Track.mk "One".data 1, Track.mk "Two".data 2]
    (Album.mk 9 "Alb".data "Art".data) (Release.mk 2 "Official".data 1)
    [SearchResult.mk "p1".data
      [SearchFile.mk "a\\d\\01 - One.flac".data 7 none (some 44100)
        (some 16),
       SearchFile.mk "a\\d\\02 - Two.flac".data 8 none (some 44100)
        (some 16),
       SearchFile.mk "a\\d\\cover.jpg".data 9 none none none]]
    (DownloadedItem.mk "Art".data "Alb".data 9 "d".data "p1".data
      "a/d".data 1
      [DownloadedTrack.mk "01 - One.flac".data 1,
       DownloadedTrack.mk "02 - Two.flac".data 2])
    "p1".data
    [EnqueueFile.mk "a\\d\\01 - One.flac".data 7,
     EnqueueFile.mk "a\\d\\02 - Two.flac".data 8]
    (by decide)

/-! ### Text normalizer (C10)

The idempotence proof runs in two steps: `preprocess` always produces a
string in canonical form (`canonStr`), and `preprocess` fixes canonical
strings. -/

lemma nfkd_fixed {x : Str} (h : ∀ c ∈ x, nfkdTable.lookup c = none) :
    nfkd x = x := by
  induction x with
  | nil => rfl
  | cons c rest ih =>
    unfold nfkd at ih ⊢
    rw [List.flatMap_cons, ih (fun d hd => h d (List.mem_cons_of_mem _ hd))]
    rw [nfkdChar, h c (by simp)]
    rfl

lemma stripMarks_fixed {x : Str} (h : ∀ c ∈ x, isMn c = false) :
    stripMarks x = x :=
  List.filter_eq_self.mpr (fun c hc => by simp [h c hc])

lemma nfcComposeAux_fixed (a : Char) :
    ∀ {rest : Str}, (∀ c ∈ rest, isMn c = false) →
      nfcComposeAux a rest = a :: rest := by
  intro rest
  induction rest generalizing a with
  | nil => intro _; rfl
  | cons b bs ih =>
    intro h
    unfold nfcComposeAux
    have hb : isMn b = false := h b (by simp)
    have hpair : nfcPair a b = none := by
      unfold nfcPair
      rw [hb]
      simp
    rw [hpair, ih b (fun c hc => h c (List.mem_cons_of_mem _ hc))]

lemma nfcCompose_fixed {x : Str} (h : ∀ c ∈ x, isMn c = false) :
    nfcCompose x = x := by
  cases x with
  | nil => rfl
  | cons a rest =>
    unfold nfcCompose
    exact nfcComposeAux_fixed a (fun c hc => h c (List.mem_cons_of_mem _ hc))

lemma lowerChar_fixed {c : Char} (h : asciiLowerTable.lookup c = none) :
    lowerChar c = c := by
  unfold lowerChar
  rw [h]
  rfl

lemma map_lower_fixed {x : Str} (h : ∀ c ∈ x, asciiLowerTable.lookup c = none) :
    x.map lowerChar = x := by
  rw [List.map_congr_left (fun c hc => lowerChar_fixed (h c hc))]
  exact List.map_id _

lemma collapseWsAux_skip {rest : Str} (h : ∀ c ∈ rest.head?, isSpaceCh c = false) :
    collapseWsAux true rest = collapseWsAux false rest := by
  cases rest with
  | nil => rfl
  | cons c cs =>
    have hc : isSpaceCh c = false := h c (by simp)
    unfold collapseWsAux
    rw [hc]
    simp

lemma collapseWs_fixed : ∀ {x : Str},
    (∀ c ∈ x, isSpaceCh c = true → c = ' ') →
    x.Chain' (fun a b => isSpaceCh a = false ∨ isSpaceCh b = false) →
    collapseWs x = x := by
  intro x
  induction x with
  | nil => intro _ _; rfl
  | cons c rest ih =>
    intro hsp hch
    have hch' := (List.chain'_cons'.mp hch).2
    have hrel := (List.chain'_cons'.mp hch).1
    unfold collapseWs at ih ⊢
    unfold collapseWsAux
    by_cases hc : isSpaceCh c = true
    · have hc' : c = ' ' := hsp c (by simp) hc
      rw [hc]
      simp only [if_true]
      have hhead : ∀ d ∈ rest.head?, isSpaceCh d = false := by
        intro d hd
        rcases hrel d hd with h | h
        · rw [hc] at h
          exact absurd h (by simp)
        · exact h
      rw [collapseWsAux_skip hhead,
        ih (fun d hd he => hsp d (List.mem_cons_of_mem _ hd) he) hch']
      rw [hc']
      simp
    · rw [Bool.not_eq_true] at hc
      rw [hc]
      simp only [Bool.false_eq_true, if_false]
      rw [ih (fun d hd he => hsp d (List.mem_cons_of_mem _ hd) he) hch']

lemma dropWhile_fixed {x : Str} (h : ∀ c ∈ x.head?, isSpaceCh c = false) :
    x.dropWhile isSpaceCh = x := by
  cases x with
  | nil => rfl
  | cons c rest =>
    rw [List.dropWhile_cons, h c (by simp)]
    simp

lemma trimSpace_fixed {x : Str} (hh : ∀ c ∈ x.head?, isSpaceCh c = false)
    (hl : ∀ c ∈ x.getLast?, isSpaceCh c = false) : trimSpace x = x := by
  unfold trimSpace
  rw [dropWhile_fixed hh, dropWhile_fixed (by
    intro c hc
    rw [List.head?_reverse] at hc
    exact hl c hc), List.reverse_reverse]

lemma preprocess_fixed {x : Str} (h : canonStr x) : preprocess x = x := by
  obtain ⟨hbase, hsp, hch, hhd, hlast⟩ := h
  unfold preprocess
  rw [nfkd_fixed (fun c hc => (hbase c hc).1),
    stripMarks_fixed (fun c hc => (hbase c hc).2.1),
    nfcCompose_fixed (fun c hc => (hbase c hc).2.1),
    map_lower_fixed (fun c hc => (hbase c hc).2.2),
    collapseWs_fixed hsp hch, trimSpace_fixed hhd hlast]

lemma mem_of_lookup {β : Type} {l : List (Char × β)} {k : Char} {v : β}
    (h : l.lookup k = some v) : (k, v) ∈ l := by
  obtain ⟨l₁, l₂, heq, _⟩ := List.lookup_eq_some_iff.mp h
  rw [heq]
  simp

lemma nfkd_outputs : ∀ p ∈ nfkdTable, ∀ o ∈ p.2,
    isMn o = true ∨ (nfkdTable.lookup (lowerChar o) = none ∧
      isMn (lowerChar o) = false ∧
      asciiLowerTable.lookup (lowerChar o) = none) := by decide

lemma lower_outputs : ∀ p ∈ asciiLowerTable,
    nfkdTable.lookup p.2 = none ∧ isMn p.2 = false ∧
      asciiLowerTable.lookup p.2 = none := by decide

lemma lower_baseGood_of_stripped (l : Str) :
    ∀ d ∈ stripMarks (nfkd l), baseGood (lowerChar d) := by
  intro d hd
  obtain ⟨hd1, hd2⟩ := List.mem_filter.mp hd
  have hd2' : isMn d = false := by simpa using hd2
  obtain ⟨c, hc, hdc⟩ := List.mem_flatMap.mp hd1
  cases hcl : nfkdTable.lookup c with
  | none =>
    have hdc' : d = c := by
      rw [nfkdChar, hcl] at hdc
      simpa using hdc
    subst hdc'
    cases hul : asciiLowerTable.lookup d with
    | none =>
      rw [lowerChar_fixed hul]
      exact ⟨hcl, hd2', hul⟩
    | some v =>
      have hlv : lowerChar d = v := by
        unfold lowerChar
        rw [hul]
        rfl
      rw [hlv]
      exact lower_outputs (d, v) (mem_of_lookup hul)
  | some vs =>
    have hdvs : d ∈ vs := by
      rw [nfkdChar, hcl] at hdc
      simpa using hdc
    rcases nfkd_outputs (c, vs) (mem_of_lookup hcl) d hdvs with h | h
    · rw [h] at hd2'
      exact absurd hd2' (by simp)
    · exact h

lemma collapse_chars : ∀ (z : Str) (flag : Bool) (c : Char),
    c ∈ collapseWsAux flag z →
    c = ' ' ∨ (c ∈ z ∧ isSpaceCh c = false) := by
  intro z
  induction z with
  | nil => intro flag c h; simp [collapseWsAux] at h
  | cons a rest ih =>
    intro flag c h
    unfold collapseWsAux at h
    by_cases ha : isSpaceCh a = true
    · rw [ha] at h
      simp only [if_true] at h
      cases flag with
      | true =>
        simp only [if_true] at h
        rcases ih true c h with h' | h'
        · exact Or.inl h'
        · exact Or.inr ⟨List.mem_cons_of_mem _ h'.1, h'.2⟩
      | false =>
        simp only [Bool.false_eq_true, if_false] at h
        rcases List.mem_cons.mp h with h' | h'
        · exact Or.inl h'
        · rcases ih true c h' with h'' | h''
          · exact Or.inl h''
          · exact Or.inr ⟨List.mem_cons_of_mem _ h''.1, h''.2⟩
    · rw [Bool.not_eq_true] at ha
      rw [ha] at h
      simp only [Bool.false_eq_true, if_false] at h
      rcases List.mem_cons.mp h with h' | h'
      · subst h'
        exact Or.inr ⟨by simp, ha⟩
      · rcases ih false c h' with h'' | h''
        · exact Or.inl h''
        · exact Or.inr ⟨List.mem_cons_of_mem _ h''.1, h''.2⟩

lemma collapse_chain : ∀ (z : Str) (flag : Bool),
    (collapseWsAux flag z).Chain'
      (fun a b => isSpaceCh a = false ∨ isSpaceCh b = false) ∧
    (flag = true →
      ∀ c ∈ (collapseWsAux flag z).head?, isSpaceCh c = false) := by
  intro z
  induction z with
  | nil =>
    intro flag
    exact ⟨List.chain'_nil, fun _ c hc => by simp [collapseWsAux] at hc⟩
  | cons a rest ih =>
    intro flag
    unfold collapseWsAux
    by_cases ha : isSpaceCh a = true
    · rw [ha]
      simp only [if_true]
      cases flag with
      | true => simpa using ih true
      | false =>
        simp only [Bool.false_eq_true, if_false]
        refine ⟨List.chain'_cons'.mpr ⟨?_, (ih true).1⟩, fun h => by
          exact absurd h (by simp)⟩
        intro y hy
        exact Or.inr ((ih true).2 rfl y hy)
    · rw [Bool.not_eq_true] at ha
      rw [ha]
      simp only [Bool.false_eq_true, if_false]
      refine ⟨List.chain'_cons'.mpr ⟨fun y _ => Or.inl ha, (ih false).1⟩,
        fun _ c hc => ?_⟩
      have hca : a = c := by simpa using hc
      rw [← hca]
      exact ha

lemma dropWhile_head (x : Str) :
    ∀ c ∈ (x.dropWhile isSpaceCh).head?, isSpaceCh c = false := by
  induction x with
  | nil => intro c hc; simp at hc
  | cons a rest ih =>
    intro c hc
    rw [List.dropWhile_cons] at hc
    by_cases ha : isSpaceCh a = true
    · rw [ha] at hc
      simp only [if_true] at hc
      exact ih c hc
    · rw [Bool.not_eq_true] at ha
      rw [ha] at hc
      simp only [Bool.false_eq_true, if_false] at hc
      have hca : a = c := by simpa using hc
      rw [← hca]
      exact ha

lemma trim_prefix_drop (x : Str) :
    ((x.dropWhile isSpaceCh).reverse.dropWhile isSpaceCh).reverse <+:
      x.dropWhile isSpaceCh := by
  have hsuf : ((x.dropWhile isSpaceCh).reverse).dropWhile isSpaceCh <:+
      (x.dropWhile isSpaceCh).reverse := List.dropWhile_suffix _
  have h2 := List.reverse_prefix.mpr hsuf
  rw [List.reverse_reverse] at h2
  exact h2

lemma trim_within (x : Str) : trimSpace x <:+: x := by
  unfold trimSpace
  have h1 : x.dropWhile isSpaceCh <:+ x := List.dropWhile_suffix _
  exact (trim_prefix_drop x).isInfix.trans h1.isInfix

lemma trim_head (x : Str) :
    ∀ c ∈ (trimSpace x).head?, isSpaceCh c = false := by
  intro c hc
  unfold trimSpace at hc
  obtain ⟨t, ht⟩ := trim_prefix_drop x
  cases hcase : ((x.dropWhile isSpaceCh).reverse.dropWhile isSpaceCh).reverse
    with
  | nil => rw [hcase] at hc; simp at hc
  | cons b bs =>
    rw [hcase] at hc ht
    have hb : b = c := by simpa using hc
    have : (x.dropWhile isSpaceCh).head? = some b := by
      rw [← ht]
      rfl
    rw [← hb]
    exact dropWhile_head x b (by simp [this])

lemma trim_last (x : Str) :
    ∀ c ∈ (trimSpace x).getLast?, isSpaceCh c = false := by
  intro c hc
  unfold trimSpace at hc
  rw [List.getLast?_reverse] at hc
  exact dropWhile_head _ c hc

lemma canon_preprocess (l : Str) : canonStr (preprocess l) := by
  have hstrip : ∀ c ∈ stripMarks (nfkd l), isMn c = false := by
    intro c hc
    have := (List.mem_filter.mp hc).2
    simpa using this
  have hcomp : nfcCompose (stripMarks (nfkd l)) = stripMarks (nfkd l) :=
    nfcCompose_fixed hstrip
  have hpre : preprocess l =
      trimSpace (collapseWs ((stripMarks (nfkd l)).map lowerChar)) := by
    unfold preprocess
    rw [hcomp]
  have hy : ∀ c ∈ (stripMarks (nfkd l)).map lowerChar, baseGood c := by
    intro c hc
    obtain ⟨d, hd, hdc⟩ := List.mem_map.mp hc
    rw [← hdc]
    exact lower_baseGood_of_stripped l d hd
  have hspace : baseGood ' ' := by
    refine ⟨by decide, by decide, by decide⟩
  rw [hpre]
  refine ⟨?_, ?_, ?_, ?_, ?_⟩
  · intro c hc
    have hcz := (trim_within _).mem hc
    rcases collapse_chars _ false c hcz with h | h
    · rw [h]; exact hspace
    · exact hy c h.1
  · intro c hc hsp
    have hcz := (trim_within _).mem hc
    rcases collapse_chars _ false c hcz with h | h
    · exact h
    · exact absurd hsp (by simp [h.2])
  · obtain ⟨u, v, huv⟩ := trim_within (collapseWs ((stripMarks (nfkd l)).map lowerChar))
    have hch : (collapseWs ((stripMarks (nfkd l)).map lowerChar)).Chain'
        (fun a b => isSpaceCh a = false ∨ isSpaceCh b = false) :=
      (collapse_chain ((stripMarks (nfkd l)).map lowerChar) false).1
    rw [← huv] at hch
    exact hch.left_of_append.right_of_append
  · exact trim_head _
  · exact trim_last _

/-- C10: the text normalizer is idempotent — applying the chain of
compatibility decomposition, combining-mark stripping, recomposition,
lowercasing, whitespace collapsing and trimming a second time changes
nothing: the first pass yields a canonical string and canonical strings
are fixed points of every stage. -/
theorem C10_idempotent (s : Str) :
    preprocess (preprocess s) = preprocess s :=
  preprocess_fixed (canon_preprocess s)

end Seekarr
